import Mathlib

/-!
Shallow embedding of the Cvxrs-Studio convex-QP/LP solver core, translated
from the Rust sources (`crates/core`, `crates/linsys`, `crates/algos`).
Scalars are embedded as exact rationals (`ℚ`): the floating-point `T`
of the source is modelled by exact arithmetic, which is the reading under
which the specification's algebraic statements are made.  Floating-point
infinities, which the source stores inside bound vectors, are modelled by
the three-valued type `XRat`; wall-clock timing (`Timer`, `max_time`) is
real time and is not modelled.
-/

set_option maxHeartbeats 1000000

namespace Cvxrs

/-- Extended rational: the value set of the bound vectors, where the source
stores `T::neg_infinity()` / `T::infinity()` alongside finite values. -/
inductive XRat where
  | negInf : XRat
  | fin : ℚ → XRat
  | posInf : XRat
deriving DecidableEq, Repr

namespace XRat

/-- Strict order on extended rationals, mirroring `f64` comparison on
non-NaN values. -/
def lt : XRat → XRat → Bool
  | negInf, negInf => false
  | negInf, _ => true
  | fin _, negInf => false
  | fin a, fin b => a < b
  | fin _, posInf => true
  | posInf, _ => false

/-- Non-strict order on extended rationals. -/
def le : XRat → XRat → Bool
  | negInf, _ => true
  | fin _, negInf => false
  | fin a, fin b => a ≤ b
  | fin _, posInf => true
  | posInf, posInf => true
  | posInf, _ => false

/-- Multiplication of an extended rational by a finite scalar, mirroring
IEEE multiplication away from the `0 · ∞` case (the source guards the only
call site with `scale != 0`; the `s = 0` branch is an arbitrary total-ization). -/
def mulQ : XRat → ℚ → XRat
  | fin a, s => fin (a * s)
  | negInf, s => if 0 < s then negInf else if s < 0 then posInf else fin 0
  | posInf, s => if 0 < s then posInf else if s < 0 then negInf else fin 0

/-- Lower clamp `x.max(lo)` of a finite value against an extended bound.
The `posInf` case would produce `+∞` in IEEE arithmetic and is outside the
finite model; it is total-ized to `x` and excluded by well-formedness
hypotheses in the theorems. -/
def maxLo (x : ℚ) : XRat → ℚ
  | negInf => x
  | fin a => max x a
  | posInf => x

/-- Upper clamp `x.min(hi)` of a finite value against an extended bound
(total-ized at `negInf`, analogously to `maxLo`). -/
def minHi (x : ℚ) : XRat → ℚ
  | posInf => x
  | fin a => min x a
  | negInf => x

end XRat

/-- Error kinds raised by the core, merging `ProblemError` and the `anyhow`
errors of the linear-algebra layer.  Message strings are not modelled; the
structured payloads (index, column, pivot magnitude) are. -/
inductive SolveErr where
  | dimensionMismatch : SolveErr
  | invalidStructure (index : ℕ) : SolveErr
  | nearSingularPivot (column : ℕ) (magnitude : ℚ) : SolveErr
  | singularDiagonal (index : ℕ) : SolveErr
deriving DecidableEq, Repr

/-- Decidable equality of `Except` results, for concrete evaluation. -/
instance {ε α : Type} [DecidableEq ε] [DecidableEq α] :
    DecidableEq (Except ε α) := fun a b =>
  match a, b with
  | .error e, .error f =>
    if h : e = f then .isTrue (by rw [h]) else .isFalse (by simp [h])
  | .ok x, .ok y =>
    if h : x = y then .isTrue (by rw [h]) else .isFalse (by simp [h])
  | .error _, .ok _ => .isFalse (by simp)
  | .ok _, .error _ => .isFalse (by simp)

/-- Outcome status of a solve (`solution.rs`). -/
inductive Status where
  | optimal
  | primalInfeasible
  | dualInfeasible
  | maxIterations
  | maxTime
  | numericalFailure
deriving DecidableEq, Repr

/-- Compressed sparse column matrix (`problem.rs::CscMatrix`). -/
structure CscMatrix where
  nrows : ℕ
  ncols : ℕ
  indptr : List ℕ
  indices : List ℕ
  data : List ℚ
deriving DecidableEq, Repr

namespace CscMatrix

/-- The empty CSC matrix (`CscMatrix::empty`). -/
def empty : CscMatrix :=
  { nrows := 0, ncols := 0, indptr := [0], indices := [], data := [] }

/-- Number of stored entries (`CscMatrix::nnz`). -/
def nnz (m : CscMatrix) : ℕ := m.data.length

/-- Validation as implemented by `CscMatrix::validate`: only the two length
checks of the source are performed. -/
def validate (m : CscMatrix) : Except SolveErr Unit :=
  if m.indptr.length ≠ m.ncols + 1 then .error .dimensionMismatch
  else if m.indices.length ≠ m.data.length then .error .dimensionMismatch
  else .ok ()

end CscMatrix

/-- Modelled from the spec: the CSC invariant of the data model section
("pointer[0] = 0; pointer is nondecreasing; pointer[cols] equals
|indices| = |values|; every row index is < rows").  Stated independently of
`CscMatrix.validate` in order to compare the two. -/
def cscInvariant (m : CscMatrix) : Prop :=
  m.indptr.length = m.ncols + 1 ∧
  m.indptr.getD 0 0 = 0 ∧
  (∀ i, i < m.indptr.length - 1 →
    m.indptr.getD i 0 ≤ m.indptr.getD (i + 1) 0) ∧
  m.indptr.getD m.ncols 0 = m.indices.length ∧
  m.indices.length = m.data.length ∧
  ∀ i, i < m.indices.length → m.indices.getD i 0 < m.nrows

instance (m : CscMatrix) : Decidable (cscInvariant m) :=
  inferInstanceAs (Decidable
    (m.indptr.length = m.ncols + 1 ∧
     m.indptr.getD 0 0 = 0 ∧
     (∀ i, i < m.indptr.length - 1 →
       m.indptr.getD i 0 ≤ m.indptr.getD (i + 1) 0) ∧
     m.indptr.getD m.ncols 0 = m.indices.length ∧
     m.indices.length = m.data.length ∧
     ∀ i, i < m.indices.length → m.indices.getD i 0 < m.nrows))

/-- Box bounds (`problem.rs::Bounds`). -/
structure Bounds where
  lower : List XRat
  upper : List XRat
deriving DecidableEq, Repr

/-- Indexed scan of `Bounds::validate`'s loop over
`lower.iter().zip(upper.iter()).enumerate()`. -/
def boundsValidateGo : ℕ → List XRat → List XRat → Except SolveErr Unit
  | _, [], _ => .ok ()
  | _, _ :: _, [] => .ok ()
  | i, lo :: ls, hi :: hs =>
    if XRat.lt hi lo then .error (.invalidStructure i)
    else boundsValidateGo (i + 1) ls hs

namespace Bounds

/-- Validation of bounds (`Bounds::validate`): equal lengths, then no lower
bound exceeding its upper bound, reporting the first offending index. -/
def validate (b : Bounds) : Except SolveErr Unit :=
  if b.lower.length ≠ b.upper.length then .error .dimensionMismatch
  else boundsValidateGo 0 b.lower b.upper

end Bounds

/-- Equality block `C x = d` (`problem.rs::EqualityConstraints`). -/
structure EqualityConstraints where
  matrix : CscMatrix
  rhs : List ℚ
deriving DecidableEq, Repr

/-- Validation of an equality block against the variable count. -/
def EqualityConstraints.validate (c : EqualityConstraints) (nvars : ℕ) :
    Except SolveErr Unit := do
  c.matrix.validate
  if c.matrix.ncols ≠ nvars then .error .dimensionMismatch
  else if c.matrix.nrows ≠ c.rhs.length then .error .dimensionMismatch
  else .ok ()

/-- Inequality block `A x ≤ b` (`problem.rs::InequalityConstraints`). -/
structure InequalityConstraints where
  matrix : CscMatrix
  rhs : List ℚ
deriving DecidableEq, Repr

/-- Validation of an inequality block against the variable count. -/
def InequalityConstraints.validate (c : InequalityConstraints) (nvars : ℕ) :
    Except SolveErr Unit := do
  c.matrix.validate
  if c.matrix.ncols ≠ nvars then .error .dimensionMismatch
  else if c.matrix.nrows ≠ c.rhs.length then .error .dimensionMismatch
  else .ok ()

/-- Quadratic program (`problem.rs::ProblemQP`). -/
structure ProblemQP where
  quadratic : CscMatrix
  linear : List ℚ
  inequalities : Option InequalityConstraints
  equalities : Option EqualityConstraints
  bounds : Option Bounds
deriving DecidableEq, Repr

namespace ProblemQP

/-- Number of decision variables (`ProblemQP::nvars`). -/
def nvars (p : ProblemQP) : ℕ := p.linear.length

/-- Validation (`ProblemQP::validate`): quadratic structure and shape,
bounds size and order, then the two constraint blocks, in source order. -/
def validate (p : ProblemQP) : Except SolveErr Unit := do
  let n := p.nvars
  p.quadratic.validate
  if p.quadratic.ncols ≠ n ∨ p.quadratic.nrows ≠ n then
    throw .dimensionMismatch
  match p.bounds with
  | some b =>
    if b.lower.length ≠ n then throw .dimensionMismatch
    b.validate
  | none => pure ()
  match p.equalities with
  | some eq => eq.validate n
  | none => pure ()
  match p.inequalities with
  | some ineq => ineq.validate n
  | none => pure ()

end ProblemQP

/-- Linear program (`problem.rs::ProblemLP`). -/
structure ProblemLP where
  cost : List ℚ
  inequalities : Option InequalityConstraints
  equalities : Option EqualityConstraints
  bounds : Option Bounds
deriving DecidableEq, Repr

namespace ProblemLP

/-- Number of decision variables (`ProblemLP::nvars`). -/
def nvars (p : ProblemLP) : ℕ := p.cost.length

/-- Validation (`ProblemLP::validate`). -/
def validate (p : ProblemLP) : Except SolveErr Unit := do
  let n := p.nvars
  match p.bounds with
  | some b =>
    if b.lower.length ≠ n then throw .dimensionMismatch
    b.validate
  | none => pure ()
  match p.equalities with
  | some eq => eq.validate n
  | none => pure ()
  match p.inequalities with
  | some ineq => ineq.validate n
  | none => pure ()

end ProblemLP

/-- Warm start data (`problem.rs::WarmStart`). -/
structure WarmStart where
  primal : List ℚ
  equality_dual : List ℚ
  inequality_dual : List ℚ
deriving DecidableEq, Repr

/-- Dot product (`math.rs::dot`); the source asserts equal lengths, here
`zipWith` (all call sites pass equal-length vectors). -/
def dot (a b : List ℚ) : ℚ := (a.zipWith (· * ·) b).sum

/-- Infinity norm (`math.rs::norm_inf`): fold of `max` over absolute values
starting from zero. -/
def normInf (v : List ℚ) : ℚ := v.foldl (fun acc value => max acc |value|) 0

/-- Componentwise clamp of one entry: `xi.max(lo).min(hi)`. -/
def clampQ (x : ℚ) (lo hi : XRat) : ℚ := XRat.minHi (XRat.maxLo x lo) hi

/-- Box projection (`math.rs::project_box`), componentwise over the zipped
vectors. -/
def projectBox (x : List ℚ) (lower upper : List XRat) : List ℚ :=
  (x.zip (lower.zip upper)).map fun e => clampQ e.1 e.2.1 e.2.2

/-- Pair of residual infinity norms (`math.rs::residuals_inf`). -/
def residualsInf (primal dual : List ℚ) : ℚ × ℚ := (normInf primal, normInf dual)

/-- Relative objective gap (`math.rs::relative_gap`):
`|p − d| / (1 + max(|p|, |d|))`. -/
def relativeGap (primalObj dualObj : ℚ) : ℚ :=
  |primalObj - dualObj| / (1 + max |primalObj| |dualObj|)

/-- Ruiz scaler state (`scaling.rs::RuizScaler`). -/
structure RuizScaler where
  column_scaling : List ℚ
  iterations : ℕ
deriving DecidableEq, Repr

/-- Constructor `RuizScaler::new`. -/
def RuizScaler.new (iterations : ℕ) : RuizScaler :=
  { column_scaling := [], iterations := iterations }

/-- Maximum absolute value over the stored entries of column `col`
(the inner scan of `scaling.rs::equilibrate_columns`). -/
def columnMax (m : CscMatrix) (col : ℕ) : ℚ :=
  (List.range' (m.indptr.getD col 0)
      (m.indptr.getD (col + 1) 0 - m.indptr.getD col 0)).foldl
    (fun acc idx => max acc |m.data.getD idx 0|) 0

/-- One column-equilibration pass (`scaling.rs::equilibrate_columns`),
parametrized by `rsqrt`, the numeric square root of the scalar type
(the `f64::sqrt` of the source, which exact rationals cannot express). -/
def equilibrateColumns (rsqrt : ℚ → ℚ) (m : CscMatrix) (scaling : List ℚ) :
    List ℚ :=
  (List.range m.ncols).foldl
    (fun s col =>
      let maxVal := columnMax m col
      if 0 < maxVal then
        let factor := rsqrt maxVal
        if 0 < factor then s.set col (s.getD col 0 / factor) else s
      else s)
    scaling

/-- Inner write of `RuizScaler::apply_column_scaling`: rescale the stored
entry at position `idx`, with the row factor applied whenever the row index
is below the scaling vector's length. -/
def applyColIdx (indices : List ℕ) (scaling : List ℚ) (invCol : ℚ)
    (data : List ℚ) (idx : ℕ) : List ℚ :=
  let row := indices.getD idx 0
  let invRow := if row < scaling.length then 1 / scaling.getD row 0 else 1
  data.set idx (data.getD idx 0 * invRow * invCol)

/-- Per-column body of `RuizScaler::apply_column_scaling`: columns whose
scale factor is zero are skipped. -/
def applyCol (m : CscMatrix) (scaling : List ℚ) (data : List ℚ) (col : ℕ) :
    List ℚ :=
  let colScale := scaling.getD col 0
  if colScale = 0 then data
  else
    let invCol := 1 / colScale
    (List.range' (m.indptr.getD col 0)
        (m.indptr.getD (col + 1) 0 - m.indptr.getD col 0)).foldl
      (applyColIdx m.indices scaling invCol) data

/-- Accumulated column scaling applied to a matrix
(`RuizScaler::apply_column_scaling`). -/
def applyColumnScaling (m : CscMatrix) (scaling : List ℚ) : CscMatrix :=
  { m with data := (List.range m.ncols).foldl (applyCol m scaling) m.data }

/-- Componentwise division of a vector by the scaling factors, skipping
zero factors and entries beyond the scaling vector
(`RuizScaler::apply_vector_scaling`). -/
def applyVectorScaling : List ℚ → List ℚ → List ℚ
  | [], _ => []
  | v, [] => v
  | v :: vs, sc :: ss =>
    (if sc ≠ 0 then v / sc else v) :: applyVectorScaling vs ss

/-- Bound rescaling (`RuizScaler::scale_bounds`): multiply both bound
vectors componentwise by the scaling factors, skipping zero factors. -/
def scaleBoundsGo : List XRat → List XRat → List ℚ → List XRat × List XRat
  | ls, us, [] => (ls, us)
  | [], us, _ => ([], us)
  | l :: ls, [], _ => (l :: ls, [])
  | l :: ls, u :: us, sc :: ss =>
    let rest := scaleBoundsGo ls us ss
    ((if sc ≠ 0 then XRat.mulQ l sc else l) :: rest.1,
     (if sc ≠ 0 then XRat.mulQ u sc else u) :: rest.2)

/-- Bound rescaling at the `Bounds` level. -/
def scaleBounds (b : Bounds) (scaling : List ℚ) : Bounds :=
  let r := scaleBoundsGo b.lower b.upper scaling
  { lower := r.1, upper := r.2 }

/-- Scaling sweep state reset: the scaling vector is reinitialized to ones
when its length disagrees with the problem's variable count. -/
def resetScaling (s : List ℚ) (n : ℕ) : List ℚ :=
  if s.length ≠ n then List.replicate n 1 else s

/-- QP scaling (`RuizScaler::scale_qp` via the `Scaler` trait): sweeps over
quadratic, inequality and equality matrices, then application of the
accumulated scaling to all coefficients.  Returns the rewritten problem and
the updated scaler (the `&mut` receiver of the source). -/
def scaleQp (rsqrt : ℚ → ℚ) (scaler : RuizScaler) (p : ProblemQP) :
    ProblemQP × RuizScaler :=
  let n := p.nvars
  let s0 := resetScaling scaler.column_scaling n
  let s := (List.range scaler.iterations).foldl
    (fun s _ =>
      let s := equilibrateColumns rsqrt p.quadratic s
      let s := match p.inequalities with
        | some iq => equilibrateColumns rsqrt iq.matrix s
        | none => s
      match p.equalities with
      | some eq => equilibrateColumns rsqrt eq.matrix s
      | none => s)
    s0
  let p' : ProblemQP :=
    { quadratic := applyColumnScaling p.quadratic s
      linear := applyVectorScaling p.linear s
      inequalities := p.inequalities.map fun iq =>
        { iq with matrix := applyColumnScaling iq.matrix s }
      equalities := p.equalities.map fun eq =>
        { eq with matrix := applyColumnScaling eq.matrix s }
      bounds := p.bounds.map fun b => scaleBounds b s }
  (p', { scaler with column_scaling := s })

/-- LP scaling (`RuizScaler::scale_lp`): sweeps over inequality and
equality matrices only, then application to all coefficients. -/
def scaleLp (rsqrt : ℚ → ℚ) (scaler : RuizScaler) (p : ProblemLP) :
    ProblemLP × RuizScaler :=
  let n := p.nvars
  let s0 := resetScaling scaler.column_scaling n
  let s := (List.range scaler.iterations).foldl
    (fun s _ =>
      let s := match p.inequalities with
        | some iq => equilibrateColumns rsqrt iq.matrix s
        | none => s
      match p.equalities with
      | some eq => equilibrateColumns rsqrt eq.matrix s
      | none => s)
    s0
  let p' : ProblemLP :=
    { cost := applyVectorScaling p.cost s
      inequalities := p.inequalities.map fun iq =>
        { iq with matrix := applyColumnScaling iq.matrix s }
      equalities := p.equalities.map fun eq =>
        { eq with matrix := applyColumnScaling eq.matrix s }
      bounds := p.bounds.map fun b => scaleBounds b s }
  (p', { scaler with column_scaling := s })

/-- Primal unscaling (`RuizScaler::unscale_primal`): componentwise division
by the scaling vector, only when the lengths agree, skipping zero factors. -/
def unscalePrimal (scaler : RuizScaler) (primal : List ℚ) : List ℚ :=
  if primal.length = scaler.column_scaling.length then
    primal.zipWith (fun x sc => if sc ≠ 0 then x / sc else x)
      scaler.column_scaling
  else primal

/-- Pivot threshold of the dense solver (`DenseKktSolver::epsilon`, the
source's `1e-12`, embedded as the exact rational). -/
def ldlEpsilon : ℚ := 1 / 10 ^ 12

/-- Dense symmetric matrix handed to the factorization
(`dense.rs::DenseKktMatrix`), row-major flat storage. -/
structure DenseKktMatrix where
  dimension : ℕ
  data : List ℚ
deriving DecidableEq, Repr

/-- Entry access `DenseKktMatrix::entry`. -/
def DenseKktMatrix.entry (m : DenseKktMatrix) (row col : ℕ) : ℚ :=
  m.data.getD (row * m.dimension + col) 0

/-- Dense LDLᵀ solver state (`dense.rs::DenseKktSolver`).  The flat `l` and
`d` vectors of the source are modelled as index functions; the represented
content is their value at in-range indices. -/
structure DenseKktSolver where
  dimension : ℕ
  l : ℕ → ℕ → ℚ
  d : ℕ → ℚ
  analyzed : Bool
  last_factor : ℕ

namespace DenseKktSolver

/-- Constructor `DenseKktSolver::new`. -/
def new : DenseKktSolver :=
  { dimension := 0, l := fun _ _ => 0, d := fun _ => 0,
    analyzed := false, last_factor := 0 }

/-- Pattern analysis (`analyze_pattern`): allocate `l` seeded with the
identity and zero `d`; the source's `Ok(())` is infallible, so the
embedding is total. -/
def analyzePattern (s : DenseKktSolver) (dim : ℕ) : DenseKktSolver :=
  { s with dimension := dim,
           l := fun i j => if i = j then 1 else 0,
           d := fun _ => 0,
           analyzed := true }

/-- One column of the factorization loop: the pivot recurrence
`dⱼ = Mⱼⱼ − Σ_{k<j} l²ⱼₖ dₖ` with the near-singular guard, then the column
update `lᵢⱼ = (Mᵢⱼ − Σ_{k<j} lᵢₖ lⱼₖ dₖ) / dⱼ` for the rows below `j`. -/
def ldlStep (entry : ℕ → ℕ → ℚ) (n : ℕ) (l : ℕ → ℕ → ℚ) (d : ℕ → ℚ)
    (j : ℕ) : Except SolveErr ((ℕ → ℕ → ℚ) × (ℕ → ℚ)) :=
  let dj := entry j j - ∑ k ∈ Finset.range j, l j k * l j k * d k
  if |dj| ≤ ldlEpsilon then .error (.nearSingularPivot j |dj|)
  else
    .ok (fun i j' =>
          if j' = j ∧ j < i ∧ i < n then
            (entry i j - ∑ k ∈ Finset.range j, l i k * l j k * d k) / dj
          else l i j',
         fun k => if k = j then dj else d k)

/-- The column loop of `factor`, processing columns `j, j+1, …` with the
given fuel (called with fuel `n` from column `0`). -/
def ldlGo (entry : ℕ → ℕ → ℚ) (n : ℕ) :
    ℕ → ℕ → (ℕ → ℕ → ℚ) → (ℕ → ℚ) →
    Except SolveErr ((ℕ → ℕ → ℚ) × (ℕ → ℚ))
  | 0, _, l, d => .ok (l, d)
  | fuel + 1, j, l, d => do
    let st ← ldlStep entry n l d j
    ldlGo entry n fuel (j + 1) st.1 st.2

/-- Body of `DenseKktSolver::factor` after the auto-analyze step:
dimension check, reset of `l` to the identity, then the column loop; the
actual-factorization counter `last_factor` is incremented on success. -/
def factorGo (s : DenseKktSolver) (m : DenseKktMatrix) :
    Except SolveErr DenseKktSolver :=
  if m.dimension ≠ s.dimension then .error .dimensionMismatch
  else
    match ldlGo m.entry s.dimension s.dimension 0
        (fun i j => if i = j then 1 else 0) s.d with
    | .error e => .error e
    | .ok st =>
      .ok { s with l := st.1, d := st.2, last_factor := s.last_factor + 1 }

/-- Factorization (`DenseKktSolver::factor`): auto-analyze when the solver
was never analyzed, then the checked column loop. -/
def factor (s : DenseKktSolver) (m : DenseKktMatrix) :
    Except SolveErr DenseKktSolver :=
  factorGo (if !s.analyzed then s.analyzePattern m.dimension else s) m

/-- Forward substitution pass of `solve`
(`rhs[i] -= Σ_{j<i} l(i,j) · rhs[j]`, sequential in `i`). -/
def forwardPass (l : ℕ → ℕ → ℚ) (n : ℕ) (rhs : List ℚ) : List ℚ :=
  (List.range n).foldl
    (fun r i =>
      r.set i (r.getD i 0 - ∑ j ∈ Finset.range i, l i j * r.getD j 0))
    rhs

/-- Diagonal pass of `solve`, with the singular-diagonal guard. -/
def diagPass (d : ℕ → ℚ) (n : ℕ) (rhs : List ℚ) :
    Except SolveErr (List ℚ) :=
  (List.range n).foldlM
    (fun r i =>
      if |d i| ≤ ldlEpsilon then .error (.singularDiagonal i)
      else .ok (r.set i (r.getD i 0 / d i)))
    rhs

/-- Back substitution pass of `solve`
(`rhs[i] -= Σ_{j>i} l(j,i) · rhs[j]`, for `i` descending). -/
def backPass (l : ℕ → ℕ → ℚ) (n : ℕ) (rhs : List ℚ) : List ℚ :=
  (List.range n).reverse.foldl
    (fun r i =>
      r.set i (r.getD i 0 - ∑ j ∈ Finset.Ico (i + 1) n, l j i * r.getD j 0))
    rhs

/-- Triangular solve (`DenseKktSolver::solve`): length check, then the
three passes; the source mutates `rhs` in place, here the updated vector is
returned. -/
def solve (s : DenseKktSolver) (rhs : List ℚ) : Except SolveErr (List ℚ) :=
  if rhs.length ≠ s.dimension then .error .dimensionMismatch
  else do
    let r := forwardPass s.l s.dimension rhs
    let r ← diagPass s.d s.dimension r
    .ok (backPass s.l s.dimension r)

end DenseKktSolver

mutual

/-- Modelled from the spec: the pivot recurrence of the LDLᵀ section,
`Dⱼ = Mⱼⱼ − Σ_{k<j} L²ⱼₖ Dₖ`, stated independently of the imperative loop
(division by a vanished pivot is total-ized to zero, as for `ℚ`). -/
def specD (entry : ℕ → ℕ → ℚ) (j : ℕ) : ℚ :=
  entry j j - ∑ k ∈ (Finset.range j).attach,
    specL entry j k.1 * specL entry j k.1 * specD entry k.1
termination_by 2 * j + 1
decreasing_by
  all_goals rcases k with ⟨k, hk⟩
  all_goals simp only [Finset.mem_range] at hk
  all_goals simp_wf
  all_goals omega

/-- Modelled from the spec: the subdiagonal recurrence of the LDLᵀ section,
`Lᵢⱼ = (Mᵢⱼ − Σ_{k<j} Lᵢₖ Lⱼₖ Dₖ) / Dⱼ`. -/
def specL (entry : ℕ → ℕ → ℚ) (i j : ℕ) : ℚ :=
  (entry i j - ∑ k ∈ (Finset.range j).attach,
    specL entry i k.1 * specL entry j k.1 * specD entry k.1) / specD entry j
termination_by 2 * j + 2
decreasing_by
  all_goals try rcases k with ⟨k, hk⟩
  all_goals try simp only [Finset.mem_range] at hk
  all_goals simp_wf
  all_goals omega

end

/-- Unfolding of `specD` with the attachment removed: the spec recurrence
`Dⱼ = Mⱼⱼ − Σ_{k<j} L²ⱼₖ Dₖ` in plain-sum form. -/
theorem specD_eq (entry : ℕ → ℕ → ℚ) (j : ℕ) :
    specD entry j = entry j j - ∑ k ∈ Finset.range j,
      specL entry j k * specL entry j k * specD entry k := by
  rw [specD]
  congr 1
  exact Finset.sum_attach (Finset.range j)
    (fun k => specL entry j k * specL entry j k * specD entry k)

/-- Unfolding of `specL` with the attachment removed: the spec recurrence
`Lᵢⱼ = (Mᵢⱼ − Σ_{k<j} Lᵢₖ Lⱼₖ Dₖ) / Dⱼ` in plain-sum form. -/
theorem specL_eq (entry : ℕ → ℕ → ℚ) (i j : ℕ) :
    specL entry i j = (entry i j - ∑ k ∈ Finset.range j,
      specL entry i k * specL entry j k * specD entry k) / specD entry j := by
  rw [specL]
  congr 2
  exact Finset.sum_attach (Finset.range j)
    (fun k => specL entry i k * specL entry j k * specD entry k)

/-- Tolerance of the refactorization cache test (`1e-12` of
`LinearSystem::factor`). -/
def rhoCacheEps : ℚ := 1 / 10 ^ 12

/-- KKT linear-system cache (`admm.rs::LinearSystem`). -/
structure LinearSystem where
  n : ℕ
  base : List ℚ
  ata : List ℚ
  buffer : List ℚ
  solver : DenseKktSolver
  current_rho : Option ℚ

namespace LinearSystem

/-- Constructor (`LinearSystem::new`); the source's `Result` is infallible
(`analyze_pattern` always succeeds), so the embedding is total. -/
def new (base ata : List ℚ) (n : ℕ) : LinearSystem :=
  { n := n, base := base, ata := ata, buffer := base,
    solver := DenseKktSolver.new.analyzePattern n, current_rho := none }

/-- Rebuild path of `LinearSystem::factor`: `K = P + ρ G` entrywise into
the buffer, dense factorization, and recording of `ρ`. -/
def refactor (ls : LinearSystem) (rho : ℚ) : Except SolveErr LinearSystem :=
  let buffer := (List.range (ls.n * ls.n)).map
    (fun i => ls.base.getD i 0 + rho * ls.ata.getD i 0)
  match ls.solver.factor { dimension := ls.n, data := buffer } with
  | .error e => .error e
  | .ok solver =>
    .ok { ls with buffer := buffer, solver := solver, current_rho := some rho }

/-- Lazy factorization (`LinearSystem::factor`): a no-op when the cached
`ρ_prev` satisfies `|ρ_prev − ρ| ≤ 1e-12 · (1 + |ρ|)`, otherwise a rebuild. -/
def factor (ls : LinearSystem) (rho : ℚ) : Except SolveErr LinearSystem :=
  match ls.current_rho with
  | some prev =>
    if |prev - rho| ≤ rhoCacheEps * (1 + |rho|) then .ok ls
    else ls.refactor rho
  | none => ls.refactor rho

/-- Forwarding solve (`LinearSystem::solve`); takes `&self`, so the cache
state is unchanged and only the rewritten right-hand side is returned. -/
def solve (ls : LinearSystem) (rhs : List ℚ) : Except SolveErr (List ℚ) :=
  ls.solver.solve rhs

end LinearSystem

/-- Scatter of a CSC matrix into a dense row-major target with a row offset
(`admm.rs::scatter_csc`). -/
def scatterCsc (m : CscMatrix) (ncols offset : ℕ) (target : List ℚ) :
    List ℚ :=
  (List.range m.ncols).foldl
    (fun t col =>
      (List.range' (m.indptr.getD col 0)
          (m.indptr.getD (col + 1) 0 - m.indptr.getD col 0)).foldl
        (fun t idx =>
          t.set ((offset + m.indices.getD idx 0) * ncols + col)
            (m.data.getD idx 0))
        t)
    target

/-- Dense materialization of a CSC matrix (`admm.rs::csc_to_dense`). -/
def cscToDense (m : CscMatrix) : List ℚ :=
  scatterCsc m m.ncols 0 (List.replicate (m.nrows * m.ncols) 0)

/-- Gram matrix `G = AᵀA` of the dense stacked constraints
(`admm.rs::compute_ata`), flat row-major of size `n × n`. -/
def computeAta (a : List ℚ) (m n : ℕ) : List ℚ :=
  (List.range (n * n)).map fun idx =>
    let i := idx / n
    let j := idx % n
    ∑ row ∈ Finset.range m, a.getD (row * n + i) 0 * a.getD (row * n + j) 0

/-- Dense matrix-vector product (`admm.rs::multiply_dense`). -/
def multiplyDense (matrix : List ℚ) (rows cols : ℕ) (x : List ℚ) : List ℚ :=
  (List.range rows).map fun row =>
    ∑ col ∈ Finset.range cols, matrix.getD (row * cols + col) 0 * x.getD col 0

/-- Identity-pattern CSC matrix with a constant value
(`admm.rs::identity_csc`). -/
def identityCsc (n : ℕ) (value : ℚ) : CscMatrix :=
  { nrows := n, ncols := n,
    indptr := List.range (n + 1),
    indices := List.range n,
    data := List.replicate n value }

/-- Writing `vals[idx]` (as finite extended rationals) into rows
`off + idx` of a bound-interval vector (the rhs loops of
`AdmmWorkspace::new`). -/
def setRowsFin (off : ℕ) (vals : List ℚ) (target : List XRat) : List XRat :=
  (List.range vals.length).foldl
    (fun t idx => t.set (off + idx) (XRat.fin (vals.getD idx 0))) target

/-- Writing the caller's box bounds into the identity rows
(`AdmmWorkspace::new`, bound-row loop over `0..n`). -/
def setBoundRows (off n : ℕ) (vals : List XRat) (dflt : XRat)
    (target : List XRat) : List XRat :=
  (List.range n).foldl
    (fun t var => t.set (off + var) (vals.getD var dflt)) target

/-- Writing the identity coefficients of the bound rows into the dense
stacked matrix. -/
def setBoundDiag (off n : ℕ) (a : List ℚ) : List ℚ :=
  (List.range n).foldl
    (fun a var => a.set ((off + var) * n + var) 1) a

/-- ADMM workspace (`admm.rs::AdmmWorkspace`): stacked dense constraints,
per-row admissible intervals, dense quadratic term and Gram matrix. -/
structure AdmmWorkspace where
  n : ℕ
  m : ℕ
  p_base : List ℚ
  ata : List ℚ
  a_dense : List ℚ
  lower : List XRat
  upper : List XRat

namespace AdmmWorkspace

/-- Workspace assembly (`AdmmWorkspace::new`): equalities first, then
inequalities, then identity rows for bounded variables; the source's
`Result` return is infallible. -/
def new (p : ProblemQP) : AdmmWorkspace :=
  let n := p.nvars
  let meq := match p.equalities with
    | some eq => eq.matrix.nrows
    | none => 0
  let mineq := match p.inequalities with
    | some iq => iq.matrix.nrows
    | none => 0
  let mb := match p.bounds with
    | some b => b.lower.length
    | none => 0
  let m := meq + mineq + mb
  let aDense := List.replicate (m * n) (0 : ℚ)
  let lower := List.replicate m XRat.negInf
  let upper := List.replicate m XRat.posInf
  -- equality block at row offset 0
  let aDense := match p.equalities with
    | some eq => scatterCsc eq.matrix n 0 aDense
    | none => aDense
  let lower := match p.equalities with
    | some eq => setRowsFin 0 eq.rhs lower
    | none => lower
  let upper := match p.equalities with
    | some eq => setRowsFin 0 eq.rhs upper
    | none => upper
  -- inequality block at row offset meq
  let aDense := match p.inequalities with
    | some iq => scatterCsc iq.matrix n meq aDense
    | none => aDense
  let upper := match p.inequalities with
    | some iq => setRowsFin meq iq.rhs upper
    | none => upper
  -- identity rows for bounded variables at row offset meq + mineq
  let rowOffset := meq + mineq
  let aDense := match p.bounds with
    | some _ => setBoundDiag rowOffset n aDense
    | none => aDense
  let lower := match p.bounds with
    | some b => setBoundRows rowOffset n b.lower .negInf lower
    | none => lower
  let upper := match p.bounds with
    | some b => setBoundRows rowOffset n b.upper .posInf upper
    | none => upper
  { n := n, m := m,
    p_base := cscToDense p.quadratic,
    ata := computeAta aDense m n,
    a_dense := aDense,
    lower := lower, upper := upper }

/-- Product `A x` over the stacked dense constraints
(`AdmmWorkspace::multiply_a`). -/
def multiplyA (ws : AdmmWorkspace) (x : List ℚ) : List ℚ :=
  (List.range ws.m).map fun row =>
    ∑ col ∈ Finset.range ws.n,
      ws.a_dense.getD (row * ws.n + col) 0 * x.getD col 0

/-- Product `Aᵀ y` over the stacked dense constraints
(`AdmmWorkspace::multiply_at`). -/
def multiplyAt (ws : AdmmWorkspace) (dual : List ℚ) : List ℚ :=
  (List.range ws.n).map fun col =>
    ∑ row ∈ Finset.range ws.m,
      ws.a_dense.getD (row * ws.n + col) 0 * dual.getD row 0

end AdmmWorkspace

/-- Objective `qᵀx + ½ xᵀPx` (`admm.rs::compute_objective`). -/
def computeObjective (linear pDense : List ℚ) (n : ℕ) (x : List ℚ) : ℚ :=
  dot linear x + (1 / 2) * dot x (multiplyDense pDense n n x)

/-- Solver options (`options.rs::SolveOptions`); the wall-clock budget
`max_time` is real time and is not modelled, `check_every` and `seed` are
carried but unused by the loop, as in the source. -/
structure SolveOptions where
  tolerance : ℚ
  max_iterations : ℕ
  admm_rho : ℚ
  admm_relaxation : ℚ
  admm_adaptive_rho : Bool
  check_every : ℕ
  seed : ℕ
deriving DecidableEq, Repr

/-- Per-iteration record (`stats.rs::IterationRecord`); the `elapsed`
timer reading is real time and is not modelled. -/
structure IterationRecord where
  iteration : ℕ
  primal_residual : ℚ
  dual_residual : ℚ
  relative_gap : ℚ
  rho : ℚ
  relaxation : ℚ
  primal_objective : ℚ
  dual_objective : ℚ
deriving DecidableEq, Repr

/-- Aggregate statistics (`stats.rs::SolveStats`); `solve_time` is real
time and is not modelled. -/
structure SolveStats where
  history : List IterationRecord
  factorizations : ℕ
  linear_solves : ℕ
deriving DecidableEq, Repr

/-- Fresh statistics (`SolveStats::new`). -/
def SolveStats.new : SolveStats :=
  { history := [], factorizations := 0, linear_solves := 0 }

/-- Record append (`SolveStats::push`). -/
def SolveStats.push (s : SolveStats) (r : IterationRecord) : SolveStats :=
  { s with history := s.history ++ [r] }

/-- Returned solution (`solution.rs::Solution`). -/
structure Solution where
  primal : List ℚ
  equality_dual : List ℚ
  inequality_dual : List ℚ
  status : Status
  objective_value : ℚ
  iterations : ℕ
  stats : SolveStats

/-- Mutable state of the ADMM iteration loop of `AdmmSolver::solve_qp`:
the iterates, the penalty, the linear-system cache, the statistics and the
bookkeeping locals of the source. -/
structure AdmmIter where
  x : List ℚ
  ax : List ℚ
  z : List ℚ
  y : List ℚ
  rho : ℚ
  linSys : LinearSystem
  stats : SolveStats
  lastObjective : ℚ
  dualObjective : ℚ
  status : Status

/-- One pass of the ADMM iteration body (the body of the `for iter` loop of
`AdmmSolver::solve_qp`).  Returns the successor state and whether the loop
broke (declared `Optimal`).  The wall-clock `MaxTime` break depends on real
time and is not modelled. -/
def admmStep (opts : SolveOptions) (ws : AdmmWorkspace) (linear : List ℚ)
    (iter : ℕ) (st : AdmmIter) : Except SolveErr (AdmmIter × Bool) := do
  let linSys ← st.linSys.factor st.rho
  let stats := { st.stats with factorizations := st.stats.factorizations + 1 }
  let tmpDual := (List.range ws.m).map
    (fun i => st.z.getD i 0 - st.y.getD i 0 / st.rho)
  let rhs0 := ws.multiplyAt tmpDual
  let rhs := (List.range ws.n).map
    (fun i => st.rho * rhs0.getD i 0 - linear.getD i 0)
  let x ← linSys.solve rhs
  let stats := { stats with linear_solves := stats.linear_solves + 1 }
  let ax := ws.multiplyA x
  let zOld := st.z
  let zPre := (List.range ws.m).map
    (fun i => ax.getD i 0 + st.y.getD i 0 / st.rho)
  let z := projectBox zPre ws.lower ws.upper
  let y := (List.range ws.m).map
    (fun i => st.y.getD i 0 + st.rho * (ax.getD i 0 - z.getD i 0))
  let primalResidual := (ax.zip z).map (fun e => e.1 - e.2)
  let tmpDual2 := (List.range ws.m).map
    (fun i => (zOld.getD i 0 - z.getD i 0) * st.rho)
  let dualResidualVec := ws.multiplyAt tmpDual2
  let objective := computeObjective linear ws.p_base ws.n x
  let dualObjective := objective - dot y primalResidual
  let norms := residualsInf primalResidual dualResidualVec
  let gap := relativeGap objective dualObjective
  let stats := stats.push
    { iteration := iter, primal_residual := norms.1, dual_residual := norms.2,
      relative_gap := gap, rho := st.rho, relaxation := opts.admm_relaxation,
      primal_objective := objective, dual_objective := dualObjective }
  let st' : AdmmIter :=
    { st with x := x, ax := ax, z := z, y := y, linSys := linSys,
              stats := stats, lastObjective := objective,
              dualObjective := dualObjective }
  if norms.1 ≤ opts.tolerance ∧ norms.2 ≤ opts.tolerance ∧
      gap ≤ opts.tolerance then
    .ok ({ st' with status := .optimal }, true)
  else
    let rho :=
      if opts.admm_adaptive_rho then
        if norms.1 > 10 * norms.2 then st.rho * 2
        else if norms.2 > 10 * norms.1 then st.rho / 2
        else st.rho
      else st.rho
    .ok ({ st' with rho := rho }, false)

/-- The ADMM iteration loop (`for iter in 0..max_iterations`), with the
remaining iteration budget as fuel. -/
def admmGo (opts : SolveOptions) (ws : AdmmWorkspace) (linear : List ℚ) :
    ℕ → ℕ → AdmmIter → Except SolveErr AdmmIter
  | 0, _, st => .ok st
  | fuel + 1, iter, st => do
    let r ← admmStep opts ws linear iter st
    if r.2 then .ok r.1 else admmGo opts ws linear fuel (iter + 1) r.1

/-- Full solve state returned by the core embedding, exposing the final
loop state and workspace alongside the source's outputs. -/
structure SolveOutcome where
  solution : Solution
  scaler : RuizScaler
  finalState : AdmmIter
  workspace : AdmmWorkspace

/-- The ADMM QP solve (`AdmmSolver::solve_qp`): validation, scaling,
workspace and cache assembly, initial iterate (warm-started when the primal
length matches), the iteration loop, and solution assembly with primal
unscaling. -/
def solveQpCore (rsqrt : ℚ → ℚ) (opts : SolveOptions)
    (warm : Option WarmStart) (problem : ProblemQP) (scaler : RuizScaler) :
    Except SolveErr SolveOutcome := do
  problem.validate
  let scaled := scaleQp rsqrt scaler problem
  let problem := scaled.1
  let scaler := scaled.2
  let ws := AdmmWorkspace.new problem
  let linSys := LinearSystem.new ws.p_base ws.ata ws.n
  let x := match warm with
    | some w =>
      if w.primal.length = ws.n then w.primal
      else List.replicate ws.n (0 : ℚ)
    | none => List.replicate ws.n (0 : ℚ)
  let ax := ws.multiplyA x
  let z := projectBox ax ws.lower ws.upper
  let y := List.replicate ws.m (0 : ℚ)
  let init : AdmmIter :=
    { x := x, ax := ax, z := z, y := y, rho := opts.admm_rho,
      linSys := linSys, stats := SolveStats.new,
      lastObjective := computeObjective problem.linear ws.p_base ws.n x,
      dualObjective := 0, status := .maxIterations }
  let final ← admmGo opts ws problem.linear opts.max_iterations 0 init
  let solution : Solution :=
    { primal := unscalePrimal scaler final.x
      equality_dual := []
      inequality_dual := final.y
      status := final.status
      objective_value := final.lastObjective
      iterations := final.stats.history.length
      stats := final.stats }
  .ok { solution := solution, scaler := scaler, finalState := final,
        workspace := ws }

/-- The public QP solve surface: the returned solution together with the
mutated scaler (the `&mut` receiver of the source). -/
def solveQp (rsqrt : ℚ → ℚ) (opts : SolveOptions) (warm : Option WarmStart)
    (problem : ProblemQP) (scaler : RuizScaler) :
    Except SolveErr (Solution × RuizScaler) :=
  (solveQpCore rsqrt opts warm problem scaler).map fun r =>
    (r.solution, r.scaler)

/-- The LP solve (`AdmmSolver::solve_lp`): wraps the LP into a QP whose
quadratic term is the zero-valued identity pattern and forwards. -/
def solveLp (rsqrt : ℚ → ℚ) (opts : SolveOptions) (warm : Option WarmStart)
    (problem : ProblemLP) (scaler : RuizScaler) :
    Except SolveErr (Solution × RuizScaler) :=
  let n := problem.nvars
  let qp : ProblemQP :=
    { quadratic := identityCsc n 0
      linear := problem.cost
      inequalities := problem.inequalities
      equalities := problem.equalities
      bounds := problem.bounds }
  solveQp rsqrt opts warm qp scaler

/-! ### List helper lemmas -/

/-- Setting one position leaves the default-read at any other position
unchanged. -/
theorem getD_set_ne {α : Type} (l : List α) {i j : ℕ} (a d : α)
    (h : i ≠ j) : (l.set i a).getD j d = l.getD j d := by
  simp [List.getD, List.getElem?_set_ne h]

/-- Setting an in-range position makes the default-read at that position
the new value. -/
theorem getD_set_self {α : Type} (l : List α) {i : ℕ} (a d : α)
    (h : i < l.length) : (l.set i a).getD i d = a := by
  simp [List.getD, List.getElem?_set_self, h]

/-! ### C7: scale–unscale round trip -/

/-- Dividing the componentwise product `s ∘ x` back by `s` recovers `x`
when every factor is nonzero. -/
theorem zipDiv_zipMul (s : List ℚ) :
    ∀ x : List ℚ, x.length = s.length → (∀ sc ∈ s, sc ≠ 0) →
    List.zipWith (fun v sc => if sc ≠ 0 then v / sc else v)
      (List.zipWith (· * ·) s x) s = x := by
  induction s with
  | nil =>
    intro x hlen _
    cases x with
    | nil => rfl
    | cons a as => simp at hlen
  | cons sc ss ih =>
    intro x hlen hnz
    cases x with
    | nil => simp at hlen
    | cons a as =>
      have hsc : sc ≠ 0 := hnz sc (List.mem_cons_self sc ss)
      simp only [List.zipWith_cons_cons, List.cons.injEq]
      refine ⟨?_, ih as (by simpa using hlen)
        (fun e he => hnz e (List.mem_cons_of_mem sc he))⟩
      rw [if_pos hsc, mul_comm, mul_div_assoc, div_self hsc, mul_one]

/-- C7 (confirmed): for every vector `x` whose length is the scaler's
variable dimension and every scaling vector with nonzero entries held by
the scaler, `unscale_primal` applied to the componentwise product `s ∘ x`
returns `x` exactly (exact arithmetic). -/
theorem unscalePrimal_roundtrip (scaler : RuizScaler) (x : List ℚ)
    (hlen : x.length = scaler.column_scaling.length)
    (hnz : ∀ sc ∈ scaler.column_scaling, sc ≠ 0) :
    unscalePrimal scaler
      (List.zipWith (· * ·) scaler.column_scaling x) = x := by
  unfold unscalePrimal
  rw [if_pos]
  · exact zipDiv_zipMul scaler.column_scaling x hlen hnz
  · rw [List.length_zipWith]
    omega

/-- Witness for C7: a concrete round trip through
`unscale_primal (s ∘ x) = x`. -/
theorem unscalePrimal_roundtrip_witness :
    ([(5 : ℚ), 7].length =
        (RuizScaler.mk [2, 3] 5).column_scaling.length) ∧
    (∀ sc ∈ (RuizScaler.mk [2, 3] 5).column_scaling, sc ≠ 0) ∧
    unscalePrimal (RuizScaler.mk [2, 3] 5)
      (List.zipWith (· * ·) [(2 : ℚ), 3] [5, 7]) = [5, 7] :=
  ⟨by decide, by decide,
    unscalePrimal_roundtrip (RuizScaler.mk [2, 3] 5) [5, 7]
      (by decide) (by decide)⟩

/-! ### C10: unscale frame conditions -/

/-- Zero scaling factors leave the corresponding zip entry untouched. -/
theorem zipDiv_zero_skip (p : List ℚ) :
    ∀ (s : List ℚ) (i : ℕ), s.getD i 0 = 0 → p.length = s.length →
    (List.zipWith (fun x sc => if sc ≠ 0 then x / sc else x) p s).getD i 0 =
      p.getD i 0 := by
  induction p with
  | nil => intro s i _ _; simp
  | cons a as ih =>
    intro s i hz hlen
    cases s with
    | nil => simp at hlen
    | cons sc ss =>
      cases i with
      | zero =>
        simp only [List.getD_cons_zero] at hz ⊢
        simp [hz]
      | succ i =>
        simp only [List.getD_cons_succ] at hz ⊢
        simp only [List.zipWith_cons_cons, List.getD_cons_succ]
        exact ih ss i hz (by simpa using hlen)

/-- C10 (confirmed): `unscale_primal` with a vector whose length differs
from the scaling vector's leaves the vector entirely unchanged (no error
channel exists in the signature); and any entry whose scaling factor is
zero is left unchanged as well. -/
theorem unscalePrimal_frame (scaler : RuizScaler) (primal : List ℚ) :
    (primal.length ≠ scaler.column_scaling.length →
      unscalePrimal scaler primal = primal) ∧
    (∀ i : ℕ, scaler.column_scaling.getD i 0 = 0 →
      (unscalePrimal scaler primal).getD i 0 = primal.getD i 0) := by
  constructor
  · intro hne
    unfold unscalePrimal
    rw [if_neg hne]
  · intro i hz
    unfold unscalePrimal
    by_cases hlen : primal.length = scaler.column_scaling.length
    · rw [if_pos hlen]
      exact zipDiv_zero_skip primal scaler.column_scaling i hz hlen
    · rw [if_neg hlen]

/-- Witness for C10: a concrete length-mismatched call returns the vector
unchanged, and a concrete zero factor leaves its entry unchanged. -/
theorem unscalePrimal_frame_witness :
    ([(5 : ℚ)].length ≠ (RuizScaler.mk [0, 2] 0).column_scaling.length) ∧
    unscalePrimal (RuizScaler.mk [0, 2] 0) [5] = [5] ∧
    ((RuizScaler.mk [0, 2] 0).column_scaling.getD 0 0 = 0) ∧
    (unscalePrimal (RuizScaler.mk [0, 2] 0) [5, 7]).getD 0 0 = 5 :=
  ⟨by decide,
    (unscalePrimal_frame (RuizScaler.mk [0, 2] 0) [5]).1 (by decide),
    by decide,
    (unscalePrimal_frame (RuizScaler.mk [0, 2] 0) [5, 7]).2 0 (by decide)⟩

/-! ### C3: CSC validation versus the CSC invariant -/

/-- Counterexample for C3: a matrix violating the CSC invariant
(`indptr[0] = 1 ≠ 0`, and `indptr[ncols] = 0 ≠` it, nondecreasing fails)
that `CscMatrix::validate` nevertheless accepts. -/
theorem cscValidate_accepts_invalid :
    CscMatrix.validate
      { nrows := 1, ncols := 1, indptr := [1, 0], indices := [], data := [] }
      = .ok () ∧
    ¬ cscInvariant
      { nrows := 1, ncols := 1, indptr := [1, 0], indices := [],
        data := [] } := by
  exact ⟨rfl, by decide⟩

/-- C3 (corrected): `CscMatrix::validate` accepts exactly the matrices
passing its two length checks — `|indptr| = ncols + 1` and
`|indices| = |data|` — checking nothing else of the CSC invariant, and
every rejection carries the `DimensionMismatch` error kind. -/
theorem cscValidate_iff (m : CscMatrix) :
    (m.validate = .ok () ↔
      (m.indptr.length = m.ncols + 1 ∧
       m.indices.length = m.data.length)) ∧
    (m.validate ≠ .ok () →
      m.validate = .error .dimensionMismatch) := by
  unfold CscMatrix.validate
  constructor
  · constructor
    · intro h
      by_cases h1 : m.indptr.length = m.ncols + 1
      · by_cases h2 : m.indices.length = m.data.length
        · exact ⟨h1, h2⟩
        · rw [if_neg (by simpa using h1), if_pos h2] at h
          exact absurd h (by simp)
      · rw [if_pos h1] at h
        exact absurd h (by simp)
    · intro ⟨h1, h2⟩
      rw [if_neg (by simpa using h1), if_neg (by simpa using h2)]
  · intro h
    by_cases h1 : m.indptr.length ≠ m.ncols + 1
    · rw [if_pos h1]
    · rw [if_neg h1]
      by_cases h2 : m.indices.length ≠ m.data.length
      · rw [if_pos h2]
      · rw [if_neg h1, if_neg h2] at h
        exact absurd rfl h

/-- Witness for C3's amended theorem, exercising both outcomes: the
empty matrix passes exactly the two implemented checks, and a matrix
failing the `indptr` length check is rejected with `DimensionMismatch`. -/
theorem cscValidate_iff_witness :
    (CscMatrix.empty.indptr.length = CscMatrix.empty.ncols + 1 ∧
     CscMatrix.empty.indices.length = CscMatrix.empty.data.length) ∧
    CscMatrix.validate CscMatrix.empty = .ok () ∧
    CscMatrix.validate
      { nrows := 0, ncols := 1, indptr := [0], indices := [], data := [] }
      = .error .dimensionMismatch :=
  ⟨by decide, (cscValidate_iff CscMatrix.empty).1.mpr (by decide),
    (cscValidate_iff
      { nrows := 0, ncols := 1, indptr := [0], indices := [],
        data := [] }).2 (by decide)⟩

/-! ### C9: infeasible bounds -/

/-- Binding a successful `Except` computation runs the continuation. -/
theorem exceptBind_ok {ε α β : Type} (a : α) (f : α → Except ε β) :
    (Except.ok a >>= f) = f a := rfl

/-- Binding a failed `Except` computation propagates the error. -/
theorem exceptBind_err {ε α β : Type} (e : ε) (f : α → Except ε β) :
    (Except.error e >>= f : Except ε β) = .error e := rfl

/-- The bounds scan reports the first index at which the lower bound
exceeds the upper bound, offset by the starting index. -/
theorem boundsValidateGo_finds :
    ∀ (ls us : List XRat) (off i : ℕ), i < ls.length → i < us.length →
    XRat.lt (us.getD i .posInf) (ls.getD i .negInf) = true →
    (∀ k, k < i → XRat.lt (us.getD k .posInf) (ls.getD k .negInf) = false) →
    boundsValidateGo off ls us = .error (.invalidStructure (off + i)) := by
  intro ls
  induction ls with
  | nil => intro us off i hi; simp at hi
  | cons lo ls ih =>
    intro us off i hi hu hviol hmin
    cases us with
    | nil => simp at hu
    | cons hi0 us =>
      cases i with
      | zero =>
        simp only [List.getD_cons_zero] at hviol
        unfold boundsValidateGo
        rw [if_pos hviol]
        rfl
      | succ i =>
        have h0 : XRat.lt hi0 lo = false := by
          have := hmin 0 (Nat.succ_pos i)
          simpa using this
        unfold boundsValidateGo
        rw [if_neg (by simp [h0])]
        have := ih us (off + 1) i (by simpa using hi) (by simpa using hu)
          (by simpa using hviol)
          (fun k hk => by
            have := hmin (k + 1) (by omega)
            simpa using this)
        rw [this]
        congr 1
        congr 1
        omega

/-- Counterexample for C9: a problem whose bounds are infeasible at index 0
(lower `1 > 0` upper) but whose validation fails with the
`DimensionMismatch` kind — not `InvalidStructure` — because the quadratic
shape check precedes the bounds check. -/
theorem boundsError_kind_counterexample :
    ProblemQP.validate
      { quadratic := CscMatrix.empty, linear := [0, 0],
        inequalities := none, equalities := none,
        bounds := some { lower := [.fin 1, .fin 1],
                         upper := [.fin 0, .fin 0] } }
      = .error .dimensionMismatch ∧
    XRat.lt (XRat.fin 0) (XRat.fin 1) = true := by
  exact ⟨rfl, by decide⟩

/-- C9 (corrected): when every check preceding the bounds scan passes
(valid quadratic of shape `n × n`, bound vectors of length `n`) and the
bounds are infeasible first at index `i`, validation fails with
`InvalidStructure` naming `i`, and the ADMM solve returns that same error
(validation runs before scaling and before any iteration). -/
theorem boundsInvalid_validate_and_solve (p : ProblemQP) (b : Bounds)
    (i : ℕ)
    (hq : p.quadratic.validate = .ok ())
    (hqc : p.quadratic.ncols = p.nvars)
    (hqr : p.quadratic.nrows = p.nvars)
    (hb : p.bounds = some b)
    (hlen : b.lower.length = p.nvars)
    (hulen : b.upper.length = b.lower.length)
    (hi : i < b.lower.length)
    (hviol : XRat.lt (b.upper.getD i .posInf) (b.lower.getD i .negInf)
      = true)
    (hmin : ∀ k, k < i →
      XRat.lt (b.upper.getD k .posInf) (b.lower.getD k .negInf) = false) :
    p.validate = .error (.invalidStructure i) ∧
    ∀ (rsqrt : ℚ → ℚ) (opts : SolveOptions) (warm : Option WarmStart)
      (scaler : RuizScaler),
      solveQp rsqrt opts warm p scaler = .error (.invalidStructure i) := by
  have hbv : b.validate = .error (.invalidStructure i) := by
    unfold Bounds.validate
    rw [if_neg (by omega)]
    have := boundsValidateGo_finds b.lower b.upper 0 i hi (by omega)
      hviol hmin
    simpa using this
  have hv : p.validate = .error (.invalidStructure i) := by
    have hsq : ¬ (p.quadratic.ncols ≠ p.nvars ∨ p.quadratic.nrows ≠ p.nvars) := by
      simp [hqc, hqr]
    have hbl : ¬ (b.lower.length ≠ p.nvars) := by simp [hlen]
    unfold ProblemQP.validate
    rw [hq]
    simp only [if_neg hsq, hb, if_neg hbl, hbv]
    rfl
  refine ⟨hv, ?_⟩
  intro rsqrt opts warm scaler
  unfold solveQp solveQpCore
  rw [hv]
  rfl

/-- Witness for C9: a concrete otherwise-well-formed problem with
`lower = (1,1)`, `upper = (0,0)` fails validation with
`InvalidStructure 0`, and the solve returns the same error. -/
theorem boundsInvalid_witness :
    ProblemQP.validate
      { quadratic := identityCsc 2 1, linear := [0, 0],
        inequalities := none, equalities := none,
        bounds := some { lower := [.fin 1, .fin 1],
                         upper := [.fin 0, .fin 0] } }
      = .error (.invalidStructure 0) ∧
    solveQp (fun _ => 0)
      { tolerance := 1 / 1000000, max_iterations := 10000, admm_rho := 1,
        admm_relaxation := 3 / 2, admm_adaptive_rho := true,
        check_every := 1, seed := 42 }
      none
      { quadratic := identityCsc 2 1, linear := [0, 0],
        inequalities := none, equalities := none,
        bounds := some { lower := [.fin 1, .fin 1],
                         upper := [.fin 0, .fin 0] } }
      (RuizScaler.new 5)
      = .error (.invalidStructure 0) := by
  have h := boundsInvalid_validate_and_solve
    { quadratic := identityCsc 2 1, linear := [0, 0],
      inequalities := none, equalities := none,
      bounds := some { lower := [.fin 1, .fin 1],
                       upper := [.fin 0, .fin 0] } }
    { lower := [.fin 1, .fin 1], upper := [.fin 0, .fin 0] } 0
    (by decide) (by decide) (by decide) rfl (by decide) (by decide)
    (by decide) (by decide) (fun k hk => absurd hk (by omega))
  exact ⟨h.1, h.2 (fun _ => 0) _ none (RuizScaler.new 5)⟩

/-! ### C8: linear-system cache -/

/-- C8 (confirmed): `LinearSystem::factor(ρ)` returns `Ok` with the entire
cache unchanged when a previously factored `ρ_prev` is within
`10⁻¹² · (1 + |ρ|)` of `ρ`; otherwise, whenever it returns `Ok`, the
buffer holds `K = P + ρ·(AᵀA)` entrywise, the dense LDLᵀ solver was run on
exactly that `K`, and `ρ` is recorded as the factored value. -/
theorem linearSystem_factor_spec (ls : LinearSystem) (rho : ℚ) :
    (∀ prev, ls.current_rho = some prev →
      |prev - rho| ≤ rhoCacheEps * (1 + |rho|) →
      ls.factor rho = .ok ls) ∧
    ((ls.current_rho = none ∨
      ∃ prev, ls.current_rho = some prev ∧
        rhoCacheEps * (1 + |rho|) < |prev - rho|) →
     ∀ ls', ls.factor rho = .ok ls' →
       ls'.buffer = (List.range (ls.n * ls.n)).map
         (fun i => ls.base.getD i 0 + rho * ls.ata.getD i 0) ∧
       ls'.current_rho = some rho ∧
       ls.solver.factor { dimension := ls.n, data := ls'.buffer }
         = .ok ls'.solver ∧
       ls'.base = ls.base ∧ ls'.ata = ls.ata ∧ ls'.n = ls.n) := by
  constructor
  · intro prev hprev hclose
    unfold LinearSystem.factor
    rw [hprev]
    simp only [if_pos hclose]
  · intro hfar ls' hok
    have hrefac : ls.refactor rho = .ok ls' := by
      unfold LinearSystem.factor at hok
      rcases hfar with hnone | ⟨prev, hprev, hfar⟩
      · rwa [hnone] at hok
      · rw [hprev] at hok
        have hok2 : (if |prev - rho| ≤ rhoCacheEps * (1 + |rho|) then
            Except.ok ls else ls.refactor rho) = Except.ok ls' := hok
        rwa [if_neg (not_le.mpr hfar)] at hok2
    have hrefac2 :
        (match ls.solver.factor
            { dimension := ls.n,
              data := (List.range (ls.n * ls.n)).map
                (fun i => ls.base.getD i 0 + rho * ls.ata.getD i 0) } with
          | .error e => (.error e : Except SolveErr LinearSystem)
          | .ok solver =>
            .ok { n := ls.n, base := ls.base, ata := ls.ata,
                  buffer := (List.range (ls.n * ls.n)).map
                    (fun i => ls.base.getD i 0 + rho * ls.ata.getD i 0),
                  solver := solver, current_rho := some rho }) =
          Except.ok ls' := hrefac
    rcases hsf : ls.solver.factor
        { dimension := ls.n,
          data := (List.range (ls.n * ls.n)).map
            (fun i => ls.base.getD i 0 + rho * ls.ata.getD i 0) } with
      e | solver'
    · rw [hsf] at hrefac2
      exact absurd hrefac2 (by simp)
    · rw [hsf] at hrefac2
      have := Except.ok.inj hrefac2
      subst this
      exact ⟨rfl, rfl, hsf, rfl, rfl, rfl⟩

/-- Witness for C8: a concretely cached system with `ρ_prev = ρ = 1` is
returned unchanged. -/
theorem linearSystem_factor_witness :
    (LinearSystem.mk 1 [2] [1] [3] (DenseKktSolver.new.analyzePattern 1)
        (some 1)).current_rho = some 1 ∧
    |(1 : ℚ) - 1| ≤ rhoCacheEps * (1 + |(1 : ℚ)|) ∧
    LinearSystem.factor
      (LinearSystem.mk 1 [2] [1] [3] (DenseKktSolver.new.analyzePattern 1)
        (some 1)) 1
      = .ok (LinearSystem.mk 1 [2] [1] [3]
        (DenseKktSolver.new.analyzePattern 1) (some 1)) :=
  ⟨rfl, by norm_num [rhoCacheEps],
    (linearSystem_factor_spec
      (LinearSystem.mk 1 [2] [1] [3] (DenseKktSolver.new.analyzePattern 1)
        (some 1)) 1).1 1 rfl (by norm_num [rhoCacheEps])⟩

/-! ### C2: which factors the scaling application uses -/

/-- Folding the per-entry rescale over any index list preserves length. -/
theorem applyColIdx_fold_length (ind : List ℕ) (s : List ℚ) (ic : ℚ) :
    ∀ (L : List ℕ) (data : List ℚ),
    (L.foldl (applyColIdx ind s ic) data).length = data.length := by
  intro L
  induction L with
  | nil => intro data; rfl
  | cons a L ih =>
    intro data
    rw [List.foldl_cons, ih]
    unfold applyColIdx
    exact List.length_set data _ _

/-- Positions not visited by the fold keep their value. -/
theorem applyColIdx_fold_notMem (ind : List ℕ) (s : List ℚ) (ic : ℚ) :
    ∀ (L : List ℕ) (data : List ℚ) (k : ℕ), k ∉ L →
    (L.foldl (applyColIdx ind s ic) data).getD k 0 = data.getD k 0 := by
  intro L
  induction L with
  | nil => intro data k _; rfl
  | cons a L ih =>
    intro data k hk
    rw [List.foldl_cons, ih _ k (fun h => hk (List.mem_cons_of_mem a h))]
    exact getD_set_ne data _ _ (fun h => hk (h ▸ List.mem_cons_self a L))

/-- The fold over a contiguous index range rescales the visited position
`k` by its row factor and the column factor, exactly once. -/
theorem applyColIdx_fold_at (ind : List ℕ) (s : List ℚ) (ic : ℚ) :
    ∀ (len start : ℕ) (data : List ℚ) (k : ℕ),
    start ≤ k → k < start + len → k < data.length →
    ((List.range' start len).foldl (applyColIdx ind s ic) data).getD k 0 =
      data.getD k 0 *
        (if ind.getD k 0 < s.length then 1 / s.getD (ind.getD k 0) 0 else 1)
        * ic := by
  intro len
  induction len with
  | zero => intro start data k h1 h2; omega
  | succ len ih =>
    intro start data k h1 h2 hlen
    show ((start :: List.range' (start + 1) len).foldl
      (applyColIdx ind s ic) data).getD k 0 = _
    rw [List.foldl_cons]
    rcases Nat.eq_or_lt_of_le h1 with heq | hlt
    · subst heq
      rw [applyColIdx_fold_notMem ind s ic _ _ start
        (by rw [List.mem_range'_1]; omega)]
      unfold applyColIdx
      exact getD_set_self data _ _ hlen
    · have : (applyColIdx ind s ic data start).getD k 0 = data.getD k 0 :=
        getD_set_ne data _ _ (by omega)
      rw [ih (start + 1) _ k (by omega) (by omega)
        (by unfold applyColIdx; rw [List.length_set]; omega)]
      rw [this]

/-- The per-column pass preserves the data length. -/
theorem applyCol_length (m : CscMatrix) (s : List ℚ) (data : List ℚ)
    (c : ℕ) : (applyCol m s data c).length = data.length := by
  unfold applyCol
  by_cases h : s.getD c 0 = 0
  · rw [if_pos h]
  · rw [if_neg h]
    exact applyColIdx_fold_length _ _ _ _ _

/-- The per-column pass leaves positions outside its pointer range
unchanged. -/
theorem applyCol_outside (m : CscMatrix) (s : List ℚ) (data : List ℚ)
    (c k : ℕ)
    (hout : k < m.indptr.getD c 0 ∨ m.indptr.getD (c + 1) 0 ≤ k) :
    (applyCol m s data c).getD k 0 = data.getD k 0 := by
  unfold applyCol
  by_cases h : s.getD c 0 = 0
  · rw [if_pos h]
  · rw [if_neg h]
    exact applyColIdx_fold_notMem _ _ _ _ _ k
      (by rw [List.mem_range'_1]; omega)

/-- The per-column pass at a position inside the column's pointer range:
skipped entirely for a zero column factor, otherwise multiplied by the row
factor (when the row index is in scaling range) and the column factor. -/
theorem applyCol_inside (m : CscMatrix) (s : List ℚ) (data : List ℚ)
    (c k : ℕ)
    (h1 : m.indptr.getD c 0 ≤ k) (h2 : k < m.indptr.getD (c + 1) 0)
    (hlen : k < data.length) :
    (applyCol m s data c).getD k 0 =
      if s.getD c 0 = 0 then data.getD k 0
      else data.getD k 0 *
        (if m.indices.getD k 0 < s.length then
          1 / s.getD (m.indices.getD k 0) 0 else 1) *
        (1 / s.getD c 0) := by
  unfold applyCol
  by_cases h : s.getD c 0 = 0
  · rw [if_pos h, if_pos h]
  · rw [if_neg h, if_neg h]
    exact applyColIdx_fold_at m.indices s _ _ _ data k h1 (by omega) hlen

/-- Folding the column passes over columns whose pointer ranges all avoid
`k` leaves the value at `k` unchanged. -/
theorem applyCols_fold_notouch (m : CscMatrix) (s : List ℚ) :
    ∀ (len start : ℕ) (data : List ℚ) (k : ℕ),
    (∀ col, start ≤ col → col < start + len →
      k < m.indptr.getD col 0 ∨ m.indptr.getD (col + 1) 0 ≤ k) →
    ((List.range' start len).foldl (applyCol m s) data).getD k 0 =
      data.getD k 0 := by
  intro len
  induction len with
  | zero => intro start data k _; rfl
  | succ len ih =>
    intro start data k hout
    show ((start :: List.range' (start + 1) len).foldl
      (applyCol m s) data).getD k 0 = _
    rw [List.foldl_cons,
      ih (start + 1) _ k (fun col hc1 hc2 => hout col (by omega) (by omega)),
      applyCol_outside m s data start k (hout start le_rfl (by omega))]

/-- Monotone reads of a pointer list that is nondecreasing at adjacent
positions. -/
theorem getD_mono_of_chain (l : List ℕ)
    (hadj : ∀ i, i + 1 < l.length → l.getD i 0 ≤ l.getD (i + 1) 0) :
    ∀ a b, a ≤ b → b < l.length → l.getD a 0 ≤ l.getD b 0 := by
  have hstep : ∀ (d a : ℕ), a + d < l.length →
      l.getD a 0 ≤ l.getD (a + d) 0 := by
    intro d
    induction d with
    | zero => intro a _; exact le_rfl
    | succ d ih =>
      intro a h
      calc l.getD a 0 ≤ l.getD (a + d) 0 := ih a (by omega)
        _ ≤ l.getD (a + d + 1) 0 := hadj (a + d) (by omega)
  intro a b hab hb
  have := hstep (b - a) a (by omega)
  have hba : a + (b - a) = b := by omega
  rwa [hba] at this

/-- The full column-scaling fold at a position belonging to column `c`. -/
theorem applyCols_fold_at (m : CscMatrix) (s : List ℚ)
    (hinv : cscInvariant m) (c k : ℕ)
    (h1 : m.indptr.getD c 0 ≤ k) (h2 : k < m.indptr.getD (c + 1) 0) :
    ∀ (len start : ℕ) (data : List ℚ),
    start ≤ c → c < start + len → start + len ≤ m.ncols →
    k < data.length →
    ((List.range' start len).foldl (applyCol m s) data).getD k 0 =
      if s.getD c 0 = 0 then data.getD k 0
      else data.getD k 0 *
        (if m.indices.getD k 0 < s.length then
          1 / s.getD (m.indices.getD k 0) 0 else 1) *
        (1 / s.getD c 0) := by
  obtain ⟨hplen, _, hchain, _, _, _⟩ := hinv
  have hmono := getD_mono_of_chain m.indptr (fun i hi => hchain i (by omega))
  intro len
  induction len with
  | zero => intro start data hs1 hs2; omega
  | succ len ih =>
    intro start data hs1 hs2 hcols hklen
    show ((start :: List.range' (start + 1) len).foldl
      (applyCol m s) data).getD k 0 = _
    rw [List.foldl_cons]
    rcases Nat.eq_or_lt_of_le hs1 with heq | hlt
    · subst heq
      rw [applyCols_fold_notouch m s len (start + 1) _ k
        (fun col hc1 hc2 => Or.inl (lt_of_lt_of_le h2
          (hmono (start + 1) col hc1 (by omega))))]
      exact applyCol_inside m s data start k h1 h2 hklen
    · have houtside : (applyCol m s data start).getD k 0 = data.getD k 0 :=
        applyCol_outside m s data start k
          (Or.inr (le_trans (hmono (start + 1) c hlt (by omega)) h1))
      rw [ih (start + 1) _ hlt (by omega) (by omega)
        (by rw [applyCol_length]; omega)]
      rw [houtside]

/-- Counterexample for C2: after `scale_qp` with accumulated scaling
`s = [1/2]`, the stored equality-matrix entry (row 0, column 0, original
value 1) becomes `4 = 1 · (1/s₀) · (1/s₀)` — not the claimed column-only
`1 · (1/s₀) = 2`: the row factor is applied to the constraint matrix
because its row index 0 is below `n = 1`. -/
theorem scaleQp_rowFactor_counterexample :
    (scaleQp (fun _ => 0) (RuizScaler.mk [1 / 2] 0)
      { quadratic := { nrows := 1, ncols := 1, indptr := [0, 1],
                       indices := [0], data := [4] },
        linear := [0], inequalities := none,
        equalities := some { matrix := { nrows := 1, ncols := 1,
                                         indptr := [0, 1], indices := [0],
                                         data := [1] },
                             rhs := [0] },
        bounds := none }).1.equalities
      = some { matrix := { nrows := 1, ncols := 1, indptr := [0, 1],
                           indices := [0], data := [4] },
               rhs := [0] } ∧
    (scaleQp (fun _ => 0) (RuizScaler.mk [1 / 2] 0)
      { quadratic := { nrows := 1, ncols := 1, indptr := [0, 1],
                       indices := [0], data := [4] },
        linear := [0], inequalities := none,
        equalities := some { matrix := { nrows := 1, ncols := 1,
                                         indptr := [0, 1], indices := [0],
                                         data := [1] },
                             rhs := [0] },
        bounds := none }).2.column_scaling = [1 / 2] ∧
    (4 : ℚ) ≠ 1 * (1 / (1 / 2)) := by
  refine ⟨?_, ?_, by norm_num⟩
  · norm_num [scaleQp, resetScaling, applyColumnScaling, applyCol,
      applyColIdx, ProblemQP.nvars, List.range'_succ, List.range_succ]
  · rfl

/-- C2 (corrected): `scale_qp` rewrites the equality and inequality
matrices (and the quadratic) through one and the same
`apply_column_scaling` with the accumulated scaling `s`; for every matrix,
a stored entry in column `c` whose column factor is nonzero is multiplied
by `1/s_c` and additionally by the row factor `1/s_row` whenever its row
index is below the length of `s` — constraint matrices are not exempt. -/
theorem scaleQp_factor_characterization (rsqrt : ℚ → ℚ)
    (scaler : RuizScaler) (p : ProblemQP) :
    ((scaleQp rsqrt scaler p).1.quadratic =
        applyColumnScaling p.quadratic
          (scaleQp rsqrt scaler p).2.column_scaling ∧
     (scaleQp rsqrt scaler p).1.equalities = p.equalities.map (fun c0 =>
        EqualityConstraints.mk
          (applyColumnScaling c0.matrix
            (scaleQp rsqrt scaler p).2.column_scaling) c0.rhs) ∧
     (scaleQp rsqrt scaler p).1.inequalities = p.inequalities.map (fun c0 =>
        InequalityConstraints.mk
          (applyColumnScaling c0.matrix
            (scaleQp rsqrt scaler p).2.column_scaling) c0.rhs)) ∧
    (∀ (mm : CscMatrix) (s : List ℚ) (c k : ℕ), cscInvariant mm →
      c < mm.ncols → mm.indptr.getD c 0 ≤ k →
      k < mm.indptr.getD (c + 1) 0 →
      (applyColumnScaling mm s).data.getD k 0 =
        if s.getD c 0 = 0 then mm.data.getD k 0
        else mm.data.getD k 0 *
          (if mm.indices.getD k 0 < s.length then
            1 / s.getD (mm.indices.getD k 0) 0 else 1) *
          (1 / s.getD c 0)) := by
  refine ⟨⟨rfl, rfl, rfl⟩, ?_⟩
  intro mm s c k hinv hc h1 h2
  have hklen : k < mm.data.length := by
    obtain ⟨hplen, _, hchain, hcnt, hdat, _⟩ := hinv
    have := getD_mono_of_chain mm.indptr (fun i hi => hchain i (by omega)) (c + 1) mm.ncols
      (by omega) (by omega)
    omega
  unfold applyColumnScaling
  simp only
  rw [List.range_eq_range']
  exact applyCols_fold_at mm s hinv c k h1 h2 mm.ncols 0 mm.data
    (by omega) (by omega) (by omega) hklen

/-- Witness for C2's amended theorem: the concrete 1×1 equality matrix
entry is multiplied by both the row and the column factor. -/
theorem scaleQp_factor_witness :
    (cscInvariant { nrows := 1, ncols := 1, indptr := [0, 1],
                    indices := [0], data := [1] } ∧
     (0 : ℕ) < 1) ∧
    (applyColumnScaling
      { nrows := 1, ncols := 1, indptr := [0, 1], indices := [0],
        data := [1] } [1 / 2]).data.getD 0 0 =
      if ([(1 : ℚ) / 2]).getD 0 0 = 0 then
        ([(1 : ℚ)]).getD 0 0
      else ([(1 : ℚ)]).getD 0 0 *
        (if ([(0 : ℕ)]).getD 0 0 < ([(1 : ℚ) / 2]).length then
          1 / ([(1 : ℚ) / 2]).getD (([(0 : ℕ)]).getD 0 0) 0 else 1) *
        (1 / ([(1 : ℚ) / 2]).getD 0 0) :=
  ⟨⟨by decide, by decide⟩,
    (scaleQp_factor_characterization (fun _ => 0) (RuizScaler.new 0)
      { quadratic := CscMatrix.empty, linear := [], inequalities := none,
        equalities := none, bounds := none }).2
      { nrows := 1, ncols := 1, indptr := [0, 1], indices := [0],
        data := [1] } [1 / 2] 0 0 (by decide) (by decide) (by decide)
      (by decide)⟩

/-! ### LDLᵀ loop invariant (towards C5 and C6) -/

/-- Invariant of the LDLᵀ column loop after the first `j` columns: the
processed part of `l` and `d` agrees with the spec recurrences, the
unprocessed part still holds the identity seed and zeros, and every
processed pivot passed the near-singularity guard. -/
def ldlInvariant (entry : ℕ → ℕ → ℚ) (n j : ℕ) (l : ℕ → ℕ → ℚ)
    (d : ℕ → ℚ) : Prop :=
  (∀ i c, c < j →
    l i c = if i = c then 1
      else if c < i ∧ i < n then specL entry i c else 0) ∧
  (∀ i c, j ≤ c → l i c = if i = c then 1 else 0) ∧
  (∀ c, c < j → d c = specD entry c) ∧
  (∀ c, j ≤ c → d c = 0) ∧
  (∀ c, c < j → ldlEpsilon < |specD entry c|)

/-- The invariant holds before any column is processed. -/
theorem ldlInvariant_init (entry : ℕ → ℕ → ℚ) (n : ℕ) :
    ldlInvariant entry n 0 (fun i j => if i = j then 1 else 0)
      (fun _ => 0) := by
  refine ⟨fun i c hc => absurd hc (by omega), fun i c _ => rfl,
    fun c hc => absurd hc (by omega), fun c _ => rfl,
    fun c hc => absurd hc (by omega)⟩

/-- Under the invariant, the pivot computed by the loop at column `j`
equals the spec recurrence `Dⱼ`. -/
theorem ldl_pivot_eq_specD (entry : ℕ → ℕ → ℚ) (n j : ℕ)
    (l : ℕ → ℕ → ℚ) (d : ℕ → ℚ)
    (hInv : ldlInvariant entry n j l d) (hj : j < n) :
    entry j j - ∑ k ∈ Finset.range j, l j k * l j k * d k
      = specD entry j := by
  rw [specD_eq]
  congr 1
  refine Finset.sum_congr rfl (fun k hk => ?_)
  rw [Finset.mem_range] at hk
  rw [hInv.1 j k hk, hInv.2.2.1 k hk,
    if_neg (by omega), if_pos ⟨hk, hj⟩]

/-- Failing step: when the spec pivot at column `j` is at most the
threshold, the loop step reports exactly that column and magnitude. -/
theorem ldlStep_err (entry : ℕ → ℕ → ℚ) (n j : ℕ) (l : ℕ → ℕ → ℚ)
    (d : ℕ → ℚ) (hInv : ldlInvariant entry n j l d) (hj : j < n)
    (hfail : |specD entry j| ≤ ldlEpsilon) :
    DenseKktSolver.ldlStep entry n l d j
      = .error (.nearSingularPivot j |specD entry j|) := by
  unfold DenseKktSolver.ldlStep
  rw [ldl_pivot_eq_specD entry n j l d hInv hj, if_pos hfail]

/-- Successful step: a passing pivot extends the invariant to `j + 1`. -/
theorem ldlStep_ok (entry : ℕ → ℕ → ℚ) (n j : ℕ) (l : ℕ → ℕ → ℚ)
    (d : ℕ → ℚ) (hInv : ldlInvariant entry n j l d) (hj : j < n)
    (hpass : ldlEpsilon < |specD entry j|) :
    ∃ st, DenseKktSolver.ldlStep entry n l d j = .ok st ∧
      ldlInvariant entry n (j + 1) st.1 st.2 := by
  unfold DenseKktSolver.ldlStep
  rw [ldl_pivot_eq_specD entry n j l d hInv hj, if_neg (not_le.mpr hpass)]
  refine ⟨_, rfl, ?_⟩
  unfold ldlInvariant
  refine ⟨?_, ?_, ?_, ?_, ?_⟩
  · -- processed column values of l
    intro i c hc
    rcases Nat.lt_or_ge c j with hcj | hcj
    · show (if c = j ∧ j < i ∧ i < n then _ else l i c) = _
      rw [if_neg (by omega)]
      exact hInv.1 i c hcj
    · have hcj' : c = j := by omega
      subst hcj'
      show (if c = c ∧ c < i ∧ i < n then _ else l i c) = _
      by_cases hic : i = c
      · subst hic
        rw [if_neg (by omega), hInv.2.1 i i le_rfl, if_pos rfl, if_pos rfl]
      · by_cases hrange : c < i ∧ i < n
        · rw [if_pos ⟨rfl, hrange.1, hrange.2⟩, if_neg hic,
            if_pos hrange, specL_eq]
          congr 2
          refine Finset.sum_congr rfl (fun k hk => ?_)
          rw [Finset.mem_range] at hk
          rw [hInv.1 i k hk, hInv.1 c k hk, hInv.2.2.1 k hk,
            if_neg (by omega), if_pos ⟨by omega, hrange.2⟩,
            if_neg (by omega), if_pos ⟨hk, by omega⟩]
        · rw [if_neg (by tauto), hInv.2.1 i c le_rfl, if_neg hic,
            if_neg hic, if_neg hrange]
  · -- untouched columns of l
    intro i c hc
    show (if c = j ∧ j < i ∧ i < n then _ else l i c) = _
    rw [if_neg (by omega)]
    exact hInv.2.1 i c (by omega)
  · -- processed values of d
    intro c hc
    rcases Nat.lt_or_ge c j with hcj | hcj
    · show (if c = j then _ else d c) = _
      rw [if_neg (by omega)]
      exact hInv.2.2.1 c hcj
    · have hcj' : c = j := by omega
      subst hcj'
      show (if c = c then specD entry c else d c) = _
      rw [if_pos rfl]
  · -- untouched values of d
    intro c hc
    show (if c = j then _ else d c) = _
    rw [if_neg (by omega)]
    exact hInv.2.2.2.1 c (by omega)
  · -- all processed pivots pass
    intro c hc
    rcases Nat.lt_or_ge c j with hcj | hcj
    · exact hInv.2.2.2.2 c hcj
    · have : c = j := by omega
      subst this
      exact hpass

/-- Loop run with no failing pivot ahead: success, with the invariant at
`n`. -/
theorem ldlGo_ok (entry : ℕ → ℕ → ℚ) (n : ℕ) :
    ∀ (fuel j : ℕ) (l : ℕ → ℕ → ℚ) (d : ℕ → ℚ),
    ldlInvariant entry n j l d → j + fuel = n →
    (∀ c, j ≤ c → c < n → ldlEpsilon < |specD entry c|) →
    ∃ st, DenseKktSolver.ldlGo entry n fuel j l d = .ok st ∧
      ldlInvariant entry n n st.1 st.2 := by
  intro fuel
  induction fuel with
  | zero =>
    intro j l d hInv hn _
    exact ⟨(l, d), rfl, by rwa [show j = n by omega] at hInv⟩
  | succ fuel ih =>
    intro j l d hInv hn hpass
    obtain ⟨st, hstep, hInv'⟩ := ldlStep_ok entry n j l d hInv (by omega)
      (hpass j le_rfl (by omega))
    obtain ⟨st', hgo, hInv''⟩ := ih (j + 1) st.1 st.2 hInv' (by omega)
      (fun c hc1 hc2 => hpass c (by omega) hc2)
    refine ⟨st', ?_, hInv''⟩
    unfold DenseKktSolver.ldlGo
    rw [hstep]
    exact hgo

/-- Loop run reaching the first failing pivot `c`: the near-singular error
naming `c` and the spec pivot magnitude. -/
theorem ldlGo_err (entry : ℕ → ℕ → ℚ) (n : ℕ) :
    ∀ (fuel j : ℕ) (l : ℕ → ℕ → ℚ) (d : ℕ → ℚ) (c : ℕ),
    ldlInvariant entry n j l d → j + fuel = n →
    j ≤ c → c < n → |specD entry c| ≤ ldlEpsilon →
    (∀ k, j ≤ k → k < c → ldlEpsilon < |specD entry k|) →
    DenseKktSolver.ldlGo entry n fuel j l d
      = .error (.nearSingularPivot c |specD entry c|) := by
  intro fuel
  induction fuel with
  | zero => intro j l d c _ hn hc1 hc2; omega
  | succ fuel ih =>
    intro j l d c hInv hn hc1 hc2 hfail hmin
    rcases Nat.eq_or_lt_of_le hc1 with heq | hlt
    · subst heq
      unfold DenseKktSolver.ldlGo
      rw [ldlStep_err entry n j l d hInv (by omega) hfail]
      rfl
    · obtain ⟨st, hstep, hInv'⟩ := ldlStep_ok entry n j l d hInv (by omega)
        (hmin j le_rfl hlt)
      unfold DenseKktSolver.ldlGo
      rw [hstep]
      exact ih (j + 1) st.1 st.2 c hInv' (by omega) hlt hc2 hfail
        (fun k hk1 hk2 => hmin k (by omega) hk2)

/-- The freshly constructed solver's factorization reduces to the column
loop on the matrix's own dimension. -/
theorem factor_new_eq (mat : DenseKktMatrix) :
    DenseKktSolver.new.factor mat =
      match DenseKktSolver.ldlGo mat.entry mat.dimension mat.dimension 0
          (fun i j => if i = j then 1 else 0) (fun _ => 0) with
      | .error e => .error e
      | .ok st =>
        .ok { (DenseKktSolver.new.analyzePattern mat.dimension) with
              l := st.1, d := st.2, last_factor := 1 } := by
  show DenseKktSolver.factorGo
    (DenseKktSolver.new.analyzePattern mat.dimension) mat = _
  unfold DenseKktSolver.factorGo
  rw [if_neg (by simp [DenseKktSolver.analyzePattern, DenseKktSolver.new])]
  rfl

/-- A successful full column loop means every spec pivot passed, and the
final state satisfies the invariant at `n`. -/
theorem ldlGo_result (entry : ℕ → ℕ → ℚ) (n : ℕ)
    (st : (ℕ → ℕ → ℚ) × (ℕ → ℚ))
    (h : DenseKktSolver.ldlGo entry n n 0
      (fun i j => if i = j then 1 else 0) (fun _ => 0) = .ok st) :
    ldlInvariant entry n n st.1 st.2 ∧
      ∀ c, c < n → ldlEpsilon < |specD entry c| := by
  by_cases hfail : ∃ c, c < n ∧ |specD entry c| ≤ ldlEpsilon
  · obtain hc0 := Nat.find_spec hfail
    have herr := ldlGo_err entry n n 0
      (fun i j => if i = j then 1 else 0) (fun _ => 0) (Nat.find hfail)
      (ldlInvariant_init entry n) (by omega) (by omega) hc0.1 hc0.2
      (fun k _ hk => by
        have := Nat.find_min hfail hk
        push_neg at this
        exact this (by omega))
    rw [herr] at h
    exact absurd h (by simp)
  · push_neg at hfail
    obtain ⟨st', h', hinv⟩ := ldlGo_ok entry n n 0
      (fun i j => if i = j then 1 else 0) (fun _ => 0)
      (ldlInvariant_init entry n) (by omega)
      (fun c _ hc2 => hfail c hc2)
    rw [h] at h'
    have := Except.ok.inj h'
    subst this
    exact ⟨hinv, fun c hc => hfail c hc⟩

/-- Exact characterization of the near-singular error of the full column
loop: it is raised at the least column whose spec pivot fails the
threshold, carrying that pivot's magnitude. -/
theorem ldlGo_error_iff (entry : ℕ → ℕ → ℚ) (n j : ℕ) (mag : ℚ) :
    DenseKktSolver.ldlGo entry n n 0
        (fun i j => if i = j then 1 else 0) (fun _ => 0)
      = .error (.nearSingularPivot j mag) ↔
      (j < n ∧ |specD entry j| ≤ ldlEpsilon ∧
       (∀ k, k < j → ldlEpsilon < |specD entry k|) ∧
       mag = |specD entry j|) := by
  constructor
  · intro h
    by_cases hfail : ∃ c, c < n ∧ |specD entry c| ≤ ldlEpsilon
    · obtain hc0 := Nat.find_spec hfail
      have hmin : ∀ k, k < Nat.find hfail → ldlEpsilon < |specD entry k| :=
        fun k hk => by
          have := Nat.find_min hfail hk
          push_neg at this
          exact this (by omega)
      have herr := ldlGo_err entry n n 0
        (fun i j => if i = j then 1 else 0) (fun _ => 0) (Nat.find hfail)
        (ldlInvariant_init entry n) (by omega) (by omega) hc0.1 hc0.2
        (fun k _ hk => hmin k hk)
      rw [herr] at h
      obtain ⟨hj, hmag⟩ := SolveErr.nearSingularPivot.inj
        (Except.error.inj h)
      subst hj
      exact ⟨hc0.1, hc0.2, hmin, hmag.symm⟩
    · push_neg at hfail
      obtain ⟨st', h', _⟩ := ldlGo_ok entry n n 0
        (fun i j => if i = j then 1 else 0) (fun _ => 0)
        (ldlInvariant_init entry n) (by omega)
        (fun c _ hc2 => hfail c hc2)
      rw [h] at h'
      exact absurd h' (by simp)
  · intro ⟨hj, hfail, hmin, hmag⟩
    subst hmag
    exact ldlGo_err entry n n 0
      (fun i j => if i = j then 1 else 0) (fun _ => 0) j
      (ldlInvariant_init entry n) (by omega) (by omega) hj hfail
      (fun k _ hk => hmin k hk)

/-- The `l` factor of a factorization result (`fun _ _ => 0` on error). -/
def factorL (r : Except SolveErr DenseKktSolver) : ℕ → ℕ → ℚ :=
  match r with
  | .ok s => s.l
  | .error _ => fun _ _ => 0

/-- The `d` factor of a factorization result (`fun _ => 0` on error). -/
def factorD (r : Except SolveErr DenseKktSolver) : ℕ → ℚ :=
  match r with
  | .ok s => s.d
  | .error _ => fun _ => 0

/-- Success test for an `Except` result. -/
def exceptIsOk {ε α : Type} : Except ε α → Bool
  | .ok _ => true
  | .error _ => false

/-- Key algebraic step for C5: a state satisfying the full invariant with
all pivots passing reconstructs a symmetric input matrix exactly:
`Σₖ Lᵢₖ Dₖ Lⱼₖ = Mᵢⱼ`. -/
theorem ldl_sum_reconstructs (entry : ℕ → ℕ → ℚ) (n : ℕ)
    (l : ℕ → ℕ → ℚ) (d : ℕ → ℚ)
    (hinv : ldlInvariant entry n n l d)
    (hpass : ∀ c, c < n → ldlEpsilon < |specD entry c|)
    (hsym : ∀ i j, i < n → j < n → entry i j = entry j i) :
    ∀ i j, i < n → j < n →
      ∑ k ∈ Finset.range n, l i k * d k * l j k = entry i j := by
  have key : ∀ i j, j ≤ i → i < n →
      ∑ k ∈ Finset.range n, l i k * d k * l j k = entry i j := by
    intro i j hji hi
    have hj : j < n := by omega
    have hzero : ∀ k ∈ Finset.range n, k ∉ Finset.range (j + 1) →
        l i k * d k * l j k = 0 := by
      intro k hk hk2
      rw [Finset.mem_range] at hk
      rw [Finset.mem_range] at hk2
      have hljk : l j k = 0 := by
        rw [hinv.1 j k hk, if_neg (by omega), if_neg (by omega)]
      rw [hljk, mul_zero]
    rw [← Finset.sum_subset (Finset.range_subset.mpr (by omega)) hzero,
      Finset.sum_range_succ]
    have hljj : l j j = 1 := by rw [hinv.1 j j hj, if_pos rfl]
    have hdj : d j = specD entry j := hinv.2.2.1 j hj
    have hsum : ∑ k ∈ Finset.range j, l i k * d k * l j k =
        ∑ k ∈ Finset.range j,
          specL entry i k * specL entry j k * specD entry k := by
      refine Finset.sum_congr rfl (fun k hk => ?_)
      rw [Finset.mem_range] at hk
      rw [hinv.1 i k (by omega), hinv.1 j k (by omega),
        hinv.2.2.1 k (by omega), if_neg (by omega),
        if_pos ⟨by omega, hi⟩, if_neg (by omega), if_pos ⟨hk, hj⟩]
      ring
    rcases Nat.eq_or_lt_of_le hji with heq | hlt
    · subst heq
      rw [hljj, hdj, hsum, mul_one, one_mul, specD_eq]
      ring
    · have hlij : l i j = specL entry i j := by
        rw [hinv.1 i j hj, if_neg (by omega), if_pos ⟨hlt, hi⟩]
      have hdj0 : specD entry j ≠ 0 := by
        have := hpass j hj
        have heps : (0 : ℚ) < ldlEpsilon := by norm_num [ldlEpsilon]
        intro h0
        rw [h0] at this
        simp at this
        linarith
      rw [hljj, hdj, hlij, hsum, mul_one, specL_eq,
        div_mul_cancel₀ _ hdj0]
      ring
  intro i j hi hj
  rcases le_or_lt j i with hji | hij
  · exact key i j hji hi
  · have hswap : ∑ k ∈ Finset.range n, l i k * d k * l j k =
        ∑ k ∈ Finset.range n, l j k * d k * l i k :=
      Finset.sum_congr rfl (fun k _ => by ring)
    rw [hswap, key j i (by omega) hj]
    exact hsym j i hj hi

/-- C5 (confirmed): whenever the dense LDLᵀ factorization of a symmetric
`n × n` matrix succeeds, the produced unit-lower-triangular `L` and
diagonal `D` satisfy `L · D · Lᵀ = M` exactly in exact arithmetic (in
particular within any tolerance proportional to `n · ‖M‖ · 10⁻¹²`). -/
theorem ldl_factor_reconstructs (mat : DenseKktMatrix)
    (hsym : ∀ i j, i < mat.dimension → j < mat.dimension →
      mat.entry i j = mat.entry j i)
    (hok : exceptIsOk (DenseKktSolver.new.factor mat) = true) :
    ∀ i j, i < mat.dimension → j < mat.dimension →
      ∑ k ∈ Finset.range mat.dimension,
        factorL (DenseKktSolver.new.factor mat) i k *
          factorD (DenseKktSolver.new.factor mat) k *
          factorL (DenseKktSolver.new.factor mat) j k = mat.entry i j := by
  rcases hgo : DenseKktSolver.ldlGo mat.entry mat.dimension mat.dimension 0
      (fun i j => if i = j then 1 else 0) (fun _ => 0) with e | st
  · have : DenseKktSolver.new.factor mat = .error e := by
      rw [factor_new_eq, hgo]
    rw [this] at hok
    exact absurd hok (by simp [exceptIsOk])
  · obtain ⟨hinv, hpass⟩ := ldlGo_result mat.entry mat.dimension st hgo
    have hfac : DenseKktSolver.new.factor mat =
        .ok { (DenseKktSolver.new.analyzePattern mat.dimension) with
              l := st.1, d := st.2, last_factor := 1 } := by
      rw [factor_new_eq, hgo]
    intro i j hi hj
    rw [hfac]
    show ∑ k ∈ Finset.range mat.dimension,
      st.1 i k * st.2 k * st.1 j k = mat.entry i j
    exact ldl_sum_reconstructs mat.entry mat.dimension st.1 st.2
      hinv hpass hsym i j hi hj

/-- Witness for C5: factorization of the symmetric matrix
`[[2, 1], [1, 2]]` succeeds and `L D Lᵀ` reproduces the `(1,0)` entry. -/
theorem ldl_factor_reconstructs_witness :
    (∀ i j, i < (DenseKktMatrix.mk 2 [2, 1, 1, 2]).dimension →
      j < (DenseKktMatrix.mk 2 [2, 1, 1, 2]).dimension →
      (DenseKktMatrix.mk 2 [2, 1, 1, 2]).entry i j
        = (DenseKktMatrix.mk 2 [2, 1, 1, 2]).entry j i) ∧
    exceptIsOk (DenseKktSolver.new.factor (DenseKktMatrix.mk 2 [2, 1, 1, 2]))
      = true ∧
    ∑ k ∈ Finset.range (DenseKktMatrix.mk 2 [2, 1, 1, 2]).dimension,
      factorL (DenseKktSolver.new.factor (DenseKktMatrix.mk 2 [2, 1, 1, 2]))
          1 k *
        factorD
          (DenseKktSolver.new.factor (DenseKktMatrix.mk 2 [2, 1, 1, 2])) k *
        factorL (DenseKktSolver.new.factor (DenseKktMatrix.mk 2 [2, 1, 1, 2]))
          0 k
      = (DenseKktMatrix.mk 2 [2, 1, 1, 2]).entry 1 0 :=
  ⟨fun i j hi hj => by interval_cases i <;> interval_cases j <;> rfl,
    by norm_num [DenseKktSolver.factor, DenseKktSolver.factorGo,
      DenseKktSolver.analyzePattern, DenseKktSolver.new,
      DenseKktSolver.ldlGo, DenseKktSolver.ldlStep, DenseKktMatrix.entry,
      ldlEpsilon, exceptIsOk, exceptBind_ok, exceptBind_err, abs_of_pos,
      Finset.sum_range_zero, Finset.sum_range_succ],
    ldl_factor_reconstructs (DenseKktMatrix.mk 2 [2, 1, 1, 2])
      (fun i j hi hj => by interval_cases i <;> interval_cases j <;> rfl)
      (by norm_num [DenseKktSolver.factor, DenseKktSolver.factorGo,
        DenseKktSolver.analyzePattern, DenseKktSolver.new,
        DenseKktSolver.ldlGo, DenseKktSolver.ldlStep, DenseKktMatrix.entry,
        ldlEpsilon, exceptIsOk, exceptBind_ok, exceptBind_err, abs_of_pos,
        Finset.sum_range_zero, Finset.sum_range_succ])
      1 0 (by norm_num) (by norm_num)⟩

/-! ### C6: the near-singular-pivot error -/

/-- Mapping over a failed `Except` computation propagates the error. -/
theorem exceptMap_err {ε α β : Type} (e : ε) (f : α → β) :
    (Except.map f (Except.error e) : Except ε β) = .error e := rfl

/-- C6 (confirmed): the dense factorization (from a fresh solver) returns
the near-singular-pivot error naming column `j` and magnitude `mag`
exactly when `j` is the first column of the recurrence
`Dⱼ = Mⱼⱼ − Σ_{k<j} L²ⱼₖ Dₖ` with `|Dⱼ| ≤ 10⁻¹²` and `mag = |Dⱼ|`; in
particular the QP with `P = 0` and no constraints (hence `K = P + ρ·0 = 0`)
makes `solve_qp` return exactly this error at column 0. -/
theorem nearSingularPivot_characterization :
    (∀ (mat : DenseKktMatrix) (j : ℕ) (mag : ℚ),
      DenseKktSolver.new.factor mat
          = .error (.nearSingularPivot j mag) ↔
        (j < mat.dimension ∧ |specD mat.entry j| ≤ ldlEpsilon ∧
         (∀ k, k < j → ldlEpsilon < |specD mat.entry k|) ∧
         mag = |specD mat.entry j|)) ∧
    solveQp (fun _ => 0)
      { tolerance := 1 / 1000000, max_iterations := 1, admm_rho := 1,
        admm_relaxation := 3 / 2, admm_adaptive_rho := false,
        check_every := 1, seed := 42 }
      none
      { quadratic := { nrows := 1, ncols := 1, indptr := [0, 0],
                       indices := [], data := [] },
        linear := [0], inequalities := none, equalities := none,
        bounds := none }
      (RuizScaler.new 0)
      = .error (.nearSingularPivot 0 0) := by
  constructor
  · intro mat j mag
    have hbridge : ∀ x : SolveErr,
        DenseKktSolver.new.factor mat = .error x ↔
        DenseKktSolver.ldlGo mat.entry mat.dimension mat.dimension 0
          (fun i j => if i = j then 1 else 0) (fun _ => 0) = .error x := by
      intro x
      rw [factor_new_eq]
      rcases hgo : DenseKktSolver.ldlGo mat.entry mat.dimension
          mat.dimension 0 (fun i j => if i = j then 1 else 0)
          (fun _ => 0) with e | st <;> simp
    exact (hbridge _).trans (ldlGo_error_iff mat.entry mat.dimension j mag)
  · norm_num [solveQp, solveQpCore, ProblemQP.validate, CscMatrix.validate,
      scaleQp, resetScaling, applyColumnScaling, applyCol, applyColIdx,
      applyVectorScaling, AdmmWorkspace.new, setRowsFin, setBoundRows, setBoundDiag,
      scatterCsc, cscToDense,
      computeAta, AdmmWorkspace.multiplyA, AdmmWorkspace.multiplyAt,
      projectBox, clampQ, LinearSystem.new, computeObjective, multiplyDense,
      dot, admmGo, admmStep, LinearSystem.factor, LinearSystem.refactor,
      DenseKktSolver.factor, DenseKktSolver.factorGo,
      DenseKktSolver.analyzePattern, DenseKktSolver.new,
      DenseKktSolver.ldlGo, DenseKktSolver.ldlStep, DenseKktMatrix.entry,
      ldlEpsilon, SolveStats.new, ProblemQP.nvars,
      exceptBind_ok, exceptBind_err, exceptMap_err,
      Finset.sum_range_zero, Finset.sum_range_succ, List.range_succ]

/-- Witness for C6: the 1×1 zero matrix has `D₀ = 0`, so the fresh-solver
factorization reports the near-singular pivot at column 0 with magnitude
`|D₀| = 0`. -/
theorem nearSingularPivot_witness :
    ((0 : ℕ) < 1 ∧ |specD (DenseKktMatrix.mk 1 [0]).entry 0| ≤ ldlEpsilon ∧
      (0 : ℚ) = |specD (DenseKktMatrix.mk 1 [0]).entry 0|) ∧
    DenseKktSolver.new.factor (DenseKktMatrix.mk 1 [0])
      = .error (.nearSingularPivot 0 0) :=
  ⟨⟨by norm_num,
    by norm_num [specD_eq, DenseKktMatrix.entry, ldlEpsilon],
    by norm_num [specD_eq, DenseKktMatrix.entry]⟩,
    (nearSingularPivot_characterization.1 (DenseKktMatrix.mk 1 [0]) 0 0).mpr
      ⟨by norm_num,
        by norm_num [specD_eq, DenseKktMatrix.entry, ldlEpsilon],
        fun k hk => absurd hk (by omega),
        by norm_num [specD_eq, DenseKktMatrix.entry]⟩⟩

/-! ### C1: the factorizations counter -/

/-- Factorizations counter of a solve outcome (0 on error). -/
def outcomeFactorizations (r : Except SolveErr SolveOutcome) : ℕ :=
  match r with
  | .ok o => o.solution.stats.factorizations
  | .error _ => 0

/-- History length (iteration count) of a solve outcome (0 on error). -/
def outcomeIterations (r : Except SolveErr SolveOutcome) : ℕ :=
  match r with
  | .ok o => o.solution.stats.history.length
  | .error _ => 0

/-- Count of factorizations actually performed by the dense LDLᵀ solver
during the solve — the solver's own `last_factor` counter (0 on error). -/
def outcomeLastFactor (r : Except SolveErr SolveOutcome) : ℕ :=
  match r with
  | .ok o => o.finalState.linSys.solver.last_factor
  | .error _ => 0

/-- A bound `Except` computation succeeds exactly when its first stage
succeeds and the continuation succeeds on its value. -/
theorem exceptBind_ok_iff {ε α β : Type} (x : Except ε α)
    (f : α → Except ε β) (b : β) :
    (x >>= f) = .ok b ↔ ∃ a, x = .ok a ∧ f a = .ok b := by
  cases x with
  | error e =>
    rw [exceptBind_err]
    simp
  | ok a =>
    rw [exceptBind_ok]
    simp

/-- The no-op test of the cache always accepts an identical `ρ`. -/
theorem factor_same_rho_noop (ls : LinearSystem) (rho : ℚ)
    (h : ls.current_rho = some rho) : ls.factor rho = .ok ls := by
  have hred : ls.factor rho =
      if |rho - rho| ≤ rhoCacheEps * (1 + |rho|) then Except.ok ls
      else ls.refactor rho := by
    unfold LinearSystem.factor
    rw [h]
  rw [hred, if_pos]
  have h1 : (0 : ℚ) < rhoCacheEps := by norm_num [rhoCacheEps]
  have h2 : (0 : ℚ) < 1 + |rho| := by positivity
  simp only [sub_self, abs_zero]
  exact le_of_lt (mul_pos h1 h2)

/-- A successful dense factorization increments `last_factor` by exactly
one. -/
theorem denseFactor_last (s : DenseKktSolver) (m : DenseKktMatrix)
    (sv : DenseKktSolver) (h : s.factor m = .ok sv) :
    sv.last_factor = s.last_factor + 1 := by
  unfold DenseKktSolver.factor at h
  generalize hs2 : (if !s.analyzed then s.analyzePattern m.dimension
    else s) = s2 at h
  have hlf : s2.last_factor = s.last_factor := by
    rw [← hs2]
    by_cases ha : s.analyzed <;>
      simp [ha, DenseKktSolver.analyzePattern]
  unfold DenseKktSolver.factorGo at h
  by_cases hd : m.dimension ≠ s2.dimension
  · rw [if_pos hd] at h
    exact absurd h (by simp)
  · rw [if_neg hd] at h
    rcases hgo : DenseKktSolver.ldlGo m.entry s2.dimension s2.dimension 0
        (fun i j => if i = j then 1 else 0) s2.d with e | st
    · rw [hgo] at h
      exact absurd h (by simp)
    · rw [hgo] at h
      have := Except.ok.inj h
      subst this
      simpa using hlf

/-- A successful rebuild records `ρ`, increments the dense solver's
counter by one, and keeps the cache's structural fields. -/
theorem refactor_ok_props (ls : LinearSystem) (rho : ℚ)
    (ls1 : LinearSystem) (h : ls.refactor rho = .ok ls1) :
    ls1.current_rho = some rho ∧
    ls1.solver.last_factor = ls.solver.last_factor + 1 := by
  have h2 :
      (match ls.solver.factor
          { dimension := ls.n,
            data := (List.range (ls.n * ls.n)).map
              (fun i => ls.base.getD i 0 + rho * ls.ata.getD i 0) } with
        | .error e => (.error e : Except SolveErr LinearSystem)
        | .ok solver =>
          .ok { ls with
                buffer := (List.range (ls.n * ls.n)).map
                  (fun i => ls.base.getD i 0 + rho * ls.ata.getD i 0),
                solver := solver, current_rho := some rho }) = .ok ls1 := h
  rcases hsf : ls.solver.factor
      { dimension := ls.n,
        data := (List.range (ls.n * ls.n)).map
          (fun i => ls.base.getD i 0 + rho * ls.ata.getD i 0) } with
    e | sv
  · rw [hsf] at h2
    exact absurd h2 (by simp)
  · rw [hsf] at h2
    have := Except.ok.inj h2
    subst this
    exact ⟨rfl, denseFactor_last ls.solver _ sv hsf⟩

/-- Behaviour of the cache's `factor` on success, by cached state: a cache
already holding exactly `ρ` is returned unchanged, and an empty cache is
rebuilt with the counter incremented. -/
theorem cacheFactor_cases (ls : LinearSystem) (rho : ℚ)
    (ls1 : LinearSystem) (h : ls.factor rho = .ok ls1) :
    (ls.current_rho = some rho → ls1 = ls) ∧
    (ls.current_rho = none → ls1.current_rho = some rho ∧
      ls1.solver.last_factor = ls.solver.last_factor + 1) := by
  constructor
  · intro hc
    rw [factor_same_rho_noop ls rho hc] at h
    exact (Except.ok.inj h).symm
  · intro hc
    unfold LinearSystem.factor at h
    rw [hc] at h
    exact refactor_ok_props ls rho ls1 h

/-- Counter bookkeeping of one iteration: `stats.factorizations` and the
history both grow by exactly one — regardless of whether the cache
refactored — the penalty is unchanged when adaptive ρ is off, and the
dense solver's own counter grows only on an actual refactorization. -/
theorem admmStep_counters (opts : SolveOptions) (ws : AdmmWorkspace)
    (linear : List ℚ) (iter : ℕ) (st st' : AdmmIter) (b : Bool)
    (hadapt : opts.admm_adaptive_rho = false)
    (h : admmStep opts ws linear iter st = .ok (st', b)) :
    st'.stats.factorizations = st.stats.factorizations + 1 ∧
    st'.stats.history.length = st.stats.history.length + 1 ∧
    st'.rho = st.rho ∧
    (st.linSys.current_rho = some st.rho → st'.linSys = st.linSys) ∧
    (st.linSys.current_rho = none →
      st'.linSys.current_rho = some st.rho ∧
      st'.linSys.solver.last_factor
        = st.linSys.solver.last_factor + 1) := by
  unfold admmStep at h
  rw [exceptBind_ok_iff] at h
  obtain ⟨ls1, hf, h⟩ := h
  rw [exceptBind_ok_iff] at h
  obtain ⟨xv, hs, h⟩ := h
  have hcases := cacheFactor_cases st.linSys st.rho ls1 hf
  simp only [hadapt, Bool.false_eq_true, if_false, SolveStats.push] at h
  split at h
  all_goals injection h with hpair
  all_goals injection hpair with hrec hbool
  all_goals rw [← hrec]
  all_goals refine ⟨by simp, by simp, by simp,
    fun hc => by simpa using (hcases.1 hc),
    fun hc => ⟨by simpa using (hcases.2 hc).1,
      by simpa using (hcases.2 hc).2⟩⟩

/-- Counter bookkeeping of the whole loop (adaptive ρ off): the
`factorizations` counter grows in lock-step with the history, while the
dense solver refactors at most once beyond the initial cache state. -/
theorem admmGo_counters (opts : SolveOptions) (ws : AdmmWorkspace)
    (linear : List ℚ) (hadapt : opts.admm_adaptive_rho = false) :
    ∀ (fuel iter : ℕ) (st st' : AdmmIter),
    admmGo opts ws linear fuel iter st = .ok st' →
    (st.linSys.current_rho = none ∨
      st.linSys.current_rho = some st.rho) →
    st'.stats.factorizations + st.stats.history.length
      = st.stats.factorizations + st'.stats.history.length ∧
    st'.linSys.solver.last_factor
      ≤ st.linSys.solver.last_factor + 1 ∧
    (st.linSys.current_rho = some st.rho →
      st'.linSys.solver.last_factor = st.linSys.solver.last_factor) := by
  intro fuel
  induction fuel with
  | zero =>
    intro iter st st' h _
    have := Except.ok.inj h
    subst this
    exact ⟨by omega, by omega, fun _ => rfl⟩
  | succ fuel ih =>
    intro iter st st' h hcr
    unfold admmGo at h
    rw [exceptBind_ok_iff] at h
    obtain ⟨r, hstep, h⟩ := h
    obtain ⟨st1, b⟩ := r
    obtain ⟨hfact, hhist, hrho, hsome, hnone⟩ :=
      admmStep_counters opts ws linear iter st st1 b hadapt hstep
    have hst1cr : st1.linSys.current_rho = some st1.rho := by
      rcases hcr with hn | hs
      · rw [hrho]
        exact (hnone hn).1
      · rw [hrho, hsome hs]
        exact hs
    cases b with
    | true =>
      simp only [if_pos] at h
      have := Except.ok.inj h
      subst this
      refine ⟨by omega, ?_, ?_⟩
      · rcases hcr with hn | hs
        · rw [(hnone hn).2]
        · rw [hsome hs]
          omega
      · intro hs
        rw [hsome hs]
    | false =>
      simp only [Bool.false_eq_true, if_false] at h
      obtain ⟨ha, hb, hc⟩ := ih (iter + 1) st1 st' h (Or.inr hst1cr)
      have hlast : st'.linSys.solver.last_factor
          = st1.linSys.solver.last_factor := hc hst1cr
      refine ⟨by omega, ?_, ?_⟩
      · rcases hcr with hn | hs
        · rw [hlast, (hnone hn).2]
        · rw [hlast, hsome hs]
          omega
      · intro hs
        rw [hlast, hsome hs]

/-- C1 (code_bug): for every successful ADMM solve with the adaptive-ρ
rule off (so `ρ` never changes and the spec's bound `k + 1` is 1), the
reported `stats.factorizations` equals the number of iterations — the
counter is incremented once per iteration unconditionally — while the
dense LDLᵀ solver's own `last_factor` counter records at most one actual
factorization for the whole solve.  Any such solve taking at least two
iterations therefore violates the claimed bound
`stats.factorizations ≤ k + 1`. -/
theorem factorizations_counter_bug (rsqrt : ℚ → ℚ) (opts : SolveOptions)
    (warm : Option WarmStart) (p : ProblemQP) (sc : RuizScaler)
    (hadapt : opts.admm_adaptive_rho = false)
    (hok : exceptIsOk (solveQpCore rsqrt opts warm p sc) = true) :
    outcomeFactorizations (solveQpCore rsqrt opts warm p sc)
      = outcomeIterations (solveQpCore rsqrt opts warm p sc) ∧
    outcomeLastFactor (solveQpCore rsqrt opts warm p sc) ≤ 1 := by
  rcases hrun : solveQpCore rsqrt opts warm p sc with e | out
  · rw [hrun] at hok
    exact absurd hok (by simp [exceptIsOk])
  · unfold solveQpCore at hrun
    rw [exceptBind_ok_iff] at hrun
    obtain ⟨u, hv, hrun⟩ := hrun
    simp only [exceptBind_ok_iff] at hrun
    obtain ⟨final, hgo, hout⟩ := hrun
    injection hout with hrec
    rw [← hrec]
    obtain ⟨ha, hb, _⟩ := admmGo_counters opts
      (AdmmWorkspace.new (scaleQp rsqrt sc p).1) (scaleQp rsqrt sc p).1.linear
      hadapt opts.max_iterations 0 _ final hgo (Or.inl rfl)
    refine ⟨?_, ?_⟩
    · simpa [outcomeFactorizations, outcomeIterations, SolveStats.new]
        using ha
    · simpa [outcomeLastFactor, SolveStats.new, LinearSystem.new,
        DenseKktSolver.analyzePattern, DenseKktSolver.new] using hb

/-- Witness for C1: a concrete unconstrained QP solve (adaptive ρ off)
succeeds, with `stats.factorizations` equal to the iteration count and at
most one actual dense factorization. -/
theorem factorizations_counter_bug_witness :
    (SolveOptions.mk (1 / 1000000) 10 1 (3 / 2) false 1 42).admm_adaptive_rho
      = false ∧
    exceptIsOk (solveQpCore (fun _ => 0)
      (SolveOptions.mk (1 / 1000000) 10 1 (3 / 2) false 1 42) none
      { quadratic := { nrows := 1, ncols := 1, indptr := [0, 1],
                       indices := [0], data := [2] },
        linear := [-1], inequalities := none, equalities := none,
        bounds := none }
      (RuizScaler.new 0)) = true ∧
    (outcomeFactorizations (solveQpCore (fun _ => 0)
        (SolveOptions.mk (1 / 1000000) 10 1 (3 / 2) false 1 42) none
        { quadratic := { nrows := 1, ncols := 1, indptr := [0, 1],
                         indices := [0], data := [2] },
          linear := [-1], inequalities := none, equalities := none,
          bounds := none }
        (RuizScaler.new 0))
      = outcomeIterations (solveQpCore (fun _ => 0)
        (SolveOptions.mk (1 / 1000000) 10 1 (3 / 2) false 1 42) none
        { quadratic := { nrows := 1, ncols := 1, indptr := [0, 1],
                         indices := [0], data := [2] },
          linear := [-1], inequalities := none, equalities := none,
          bounds := none }
        (RuizScaler.new 0)) ∧
     outcomeLastFactor (solveQpCore (fun _ => 0)
        (SolveOptions.mk (1 / 1000000) 10 1 (3 / 2) false 1 42) none
        { quadratic := { nrows := 1, ncols := 1, indptr := [0, 1],
                         indices := [0], data := [2] },
          linear := [-1], inequalities := none, equalities := none,
          bounds := none }
        (RuizScaler.new 0)) ≤ 1) :=
  ⟨rfl,
    by norm_num [solveQpCore, ProblemQP.validate, CscMatrix.validate,
      scaleQp, resetScaling, applyColumnScaling, applyCol, applyColIdx,
      applyVectorScaling, AdmmWorkspace.new, setRowsFin, setBoundRows, setBoundDiag,
      scatterCsc, cscToDense,
      computeAta, AdmmWorkspace.multiplyA, AdmmWorkspace.multiplyAt,
      projectBox, clampQ, LinearSystem.new, computeObjective,
      multiplyDense, dot, admmGo, admmStep, LinearSystem.factor,
      LinearSystem.refactor, LinearSystem.solve, DenseKktSolver.solve,
      DenseKktSolver.forwardPass, DenseKktSolver.diagPass,
      DenseKktSolver.backPass, DenseKktSolver.factor,
      DenseKktSolver.factorGo, DenseKktSolver.analyzePattern,
      DenseKktSolver.new, DenseKktSolver.ldlGo, DenseKktSolver.ldlStep,
      DenseKktMatrix.entry, ldlEpsilon, rhoCacheEps, SolveStats.new,
      SolveStats.push, ProblemQP.nvars, normInf, residualsInf,
      relativeGap, abs_of_pos, exceptIsOk, exceptBind_ok, exceptBind_err,
      RuizScaler.new, resetScaling, equilibrateColumns,
      Finset.sum_range_zero, Finset.sum_range_succ, List.range_succ,
      List.range_zero],
    factorizations_counter_bug (fun _ => 0)
      (SolveOptions.mk (1 / 1000000) 10 1 (3 / 2) false 1 42) none
      { quadratic := { nrows := 1, ncols := 1, indptr := [0, 1],
                       indices := [0], data := [2] },
        linear := [-1], inequalities := none, equalities := none,
        bounds := none }
      (RuizScaler.new 0) rfl
      (by norm_num [solveQpCore, ProblemQP.validate, CscMatrix.validate,
        scaleQp, resetScaling, applyColumnScaling, applyCol, applyColIdx,
        applyVectorScaling, AdmmWorkspace.new, setRowsFin, setBoundRows, setBoundDiag,
      scatterCsc, cscToDense,
        computeAta, AdmmWorkspace.multiplyA, AdmmWorkspace.multiplyAt,
        projectBox, clampQ, LinearSystem.new, computeObjective,
        multiplyDense, dot, admmGo, admmStep, LinearSystem.factor,
        LinearSystem.refactor, LinearSystem.solve, DenseKktSolver.solve,
        DenseKktSolver.forwardPass, DenseKktSolver.diagPass,
        DenseKktSolver.backPass, DenseKktSolver.factor,
        DenseKktSolver.factorGo, DenseKktSolver.analyzePattern,
        DenseKktSolver.new, DenseKktSolver.ldlGo, DenseKktSolver.ldlStep,
        DenseKktMatrix.entry, ldlEpsilon, rhoCacheEps, SolveStats.new,
        SolveStats.push, ProblemQP.nvars, normInf, residualsInf,
        relativeGap, abs_of_pos, exceptIsOk, exceptBind_ok,
        exceptBind_err, RuizScaler.new, resetScaling, equilibrateColumns,
        Finset.sum_range_zero, Finset.sum_range_succ, List.range_succ,
        List.range_zero])⟩

/-! ### C4: certificates at Optimal status -/

/-- Totality of the extended-rational order: a failed strict comparison
is a reversed non-strict one. -/
theorem xle_of_lt_false (lo hi : XRat) (h : XRat.lt hi lo = false) :
    XRat.le lo hi = true := by
  cases lo <;> cases hi <;>
    simp_all [XRat.lt, XRat.le] <;> linarith

/-- The clamp of a finite value against a well-formed interval lands in
the interval. -/
theorem clampQ_mem (x : ℚ) (lo hi : XRat)
    (hle : XRat.le lo hi = true) (hlo : lo ≠ .posInf)
    (hhi : hi ≠ .negInf) :
    XRat.le lo (.fin (clampQ x lo hi)) = true ∧
    XRat.le (.fin (clampQ x lo hi)) hi = true := by
  cases lo with
  | posInf => exact absurd rfl hlo
  | negInf =>
    cases hi with
    | negInf => exact absurd rfl hhi
    | posInf => exact ⟨rfl, rfl⟩
    | fin b =>
      refine ⟨rfl, ?_⟩
      simp [clampQ, XRat.maxLo, XRat.minHi, XRat.le]
  | fin a =>
    cases hi with
    | negInf => exact absurd rfl hhi
    | posInf =>
      refine ⟨?_, rfl⟩
      simp [clampQ, XRat.maxLo, XRat.minHi, XRat.le, le_max_right]
    | fin b =>
      have hab : a ≤ b := by simpa [XRat.le] using hle
      constructor
      · simp only [clampQ, XRat.maxLo, XRat.minHi, XRat.le,
          le_min_iff, decide_eq_true_eq]
        exact ⟨le_max_right x a, hab⟩
      · simp [clampQ, XRat.maxLo, XRat.minHi, XRat.le]

/-- Length of a box projection over equal-length vectors. -/
theorem projectBox_length (x : List ℚ) (lo hi : List XRat)
    (h1 : lo.length = x.length) (h2 : hi.length = x.length) :
    (projectBox x lo hi).length = x.length := by
  unfold projectBox
  rw [List.length_map, List.length_zip, List.length_zip]
  omega

/-- Entrywise description of the box projection. -/
theorem projectBox_getD (x : List ℚ) (lo hi : List XRat) (i : ℕ)
    (hi0 : i < x.length) (h1 : lo.length = x.length)
    (h2 : hi.length = x.length) :
    (projectBox x lo hi).getD i 0 =
      clampQ (x.getD i 0) (lo.getD i .negInf) (hi.getD i .posInf) := by
  unfold projectBox
  have hlen : i < (x.zip (lo.zip hi)).length := by
    rw [List.length_zip, List.length_zip]
    omega
  rw [List.getD_eq_getElem _ _ (by rwa [List.length_map]),
    List.getElem_map, List.getElem_zip, List.getElem_zip,
    List.getD_eq_getElem x 0 hi0, List.getD_eq_getElem lo _ (by omega),
    List.getD_eq_getElem hi _ (by omega)]

/-- Generic fold of length-preserving list updates preserves length. -/
theorem foldl_length_pres {α β : Type} (f : List α → β → List α)
    (hf : ∀ t a, (f t a).length = t.length) :
    ∀ (L : List β) (t : List α), (L.foldl f t).length = t.length := by
  intro L
  induction L with
  | nil => intro t; rfl
  | cons a L ih => intro t; rw [List.foldl_cons, ih, hf]

/-- Read-back of an offset family of writes `t[off + idx] := v idx` for
`idx < cnt`: positions inside the window take the written value, others
keep theirs. -/
theorem foldl_set_offset_getD {α : Type} (off : ℕ) (v : ℕ → α) (dflt : α) :
    ∀ (cnt : ℕ) (t : List α) (q : ℕ), q < t.length →
    ((List.range cnt).foldl (fun acc idx => acc.set (off + idx) (v idx))
        t).getD q dflt
      = if off ≤ q ∧ q < off + cnt then v (q - off) else t.getD q dflt := by
  intro cnt
  induction cnt with
  | zero =>
    intro t q hq
    rw [if_neg (by omega)]
    rfl
  | succ cnt ih =>
    intro t q hq
    rw [List.range_succ, List.foldl_append, List.foldl_cons,
      List.foldl_nil]
    by_cases hqc : q = off + cnt
    · subst hqc
      rw [getD_set_self _ _ _ (by
        rw [foldl_length_pres _ (fun t a => List.length_set t _ _)]
        omega)]
      rw [if_pos (by omega)]
      congr 1
      omega
    · rw [getD_set_ne _ _ _ (by omega), ih t q hq]
      by_cases hin : off ≤ q ∧ q < off + cnt
      · rw [if_pos hin, if_pos (by omega)]
      · rw [if_neg hin, if_neg (by omega)]

/-- Read-back of a replicated list. -/
theorem getD_replicate {α : Type} (m : ℕ) (a dflt : α) (q : ℕ)
    (h : q < m) : (List.replicate m a).getD q dflt = a := by
  rw [List.getD_eq_getElem _ _ (by simpa using h),
    List.getElem_replicate]

/-- Equilibration sweeps preserve the length of the scaling vector. -/
theorem equilibrateColumns_length (rsqrt : ℚ → ℚ) (m : CscMatrix)
    (s : List ℚ) : (equilibrateColumns rsqrt m s).length = s.length := by
  unfold equilibrateColumns
  induction List.range m.ncols generalizing s with
  | nil => rfl
  | cons c L ih =>
    rw [List.foldl_cons]
    rw [ih]
    by_cases h1 : 0 < columnMax m c
    · rw [if_pos h1]
      by_cases h2 : 0 < rsqrt (columnMax m c)
      · rw [if_pos h2, List.length_set]
      · rw [if_neg h2]
    · rw [if_neg h1]

/-- Equilibration sweeps keep every entry of the scaling vector
positive. -/
theorem equilibrateColumns_pos (rsqrt : ℚ → ℚ) (m : CscMatrix)
    (s : List ℚ) (hs : ∀ e ∈ s, 0 < e) :
    ∀ e ∈ equilibrateColumns rsqrt m s, 0 < e := by
  unfold equilibrateColumns
  induction List.range m.ncols generalizing s with
  | nil => exact hs
  | cons c L ih =>
    rw [List.foldl_cons]
    refine ih _ ?_
    by_cases h1 : 0 < columnMax m c
    · rw [if_pos h1]
      by_cases h2 : 0 < rsqrt (columnMax m c)
      · rw [if_pos h2]
        intro e he
        by_cases hc : c < s.length
        · rcases List.mem_or_eq_of_mem_set he with hmem | heq
          · exact hs e hmem
          · subst heq
            have hmem : s.getD c 0 ∈ s := by
              rw [List.getD_eq_getElem _ _ hc]
              exact List.getElem_mem hc
            exact div_pos (hs _ hmem) h2
        · rw [List.set_eq_of_length_le (by omega)] at he
          exact hs e he
      · rw [if_neg h2]
        exact hs
    · rw [if_neg h1]
      exact hs

/-- Scaling by a positive factor preserves a well-formed interval. -/
theorem mulQ_wf (lo hi : XRat) (sc : ℚ) (hsc : 0 < sc)
    (hle : XRat.le lo hi = true) (hlo : lo ≠ .posInf)
    (hhi : hi ≠ .negInf) :
    XRat.le (XRat.mulQ lo sc) (XRat.mulQ hi sc) = true ∧
    XRat.mulQ lo sc ≠ .posInf ∧ XRat.mulQ hi sc ≠ .negInf := by
  cases lo <;> cases hi <;>
    simp_all [XRat.le, XRat.mulQ, hsc] <;>
    first
      | exact mul_le_mul_of_nonneg_right hle (le_of_lt hsc)
      | (intro h; exact absurd h (by simp))

/-- Bound rescaling preserves both lengths. -/
theorem scaleBoundsGo_lengths :
    ∀ (ls us : List XRat) (ss : List ℚ),
    (scaleBoundsGo ls us ss).1.length = ls.length ∧
    (scaleBoundsGo ls us ss).2.length = us.length := by
  intro ls
  induction ls with
  | nil =>
    intro us ss
    cases us <;> cases ss <;> simp [scaleBoundsGo]
  | cons l ls ih =>
    intro us ss
    cases us with
    | nil => cases ss <;> simp [scaleBoundsGo]
    | cons u us =>
      cases ss with
      | nil => simp [scaleBoundsGo]
      | cons sc ss =>
        have := ih us ss
        simp only [scaleBoundsGo, List.length_cons]
        omega

/-- Entrywise description of bound rescaling on equal-length inputs. -/
theorem scaleBoundsGo_getD :
    ∀ (ls us : List XRat) (ss : List ℚ) (i : ℕ), i < ls.length →
    ls.length = us.length → us.length = ss.length →
    (scaleBoundsGo ls us ss).1.getD i .negInf
      = (if ss.getD i 0 ≠ 0 then XRat.mulQ (ls.getD i .negInf) (ss.getD i 0)
         else ls.getD i .negInf) ∧
    (scaleBoundsGo ls us ss).2.getD i .posInf
      = (if ss.getD i 0 ≠ 0 then XRat.mulQ (us.getD i .posInf) (ss.getD i 0)
         else us.getD i .posInf) := by
  intro ls
  induction ls with
  | nil => intro us ss i hi; simp at hi
  | cons l ls ih =>
    intro us ss i hi h1 h2
    cases us with
    | nil => simp at h1
    | cons u us =>
      cases ss with
      | nil => simp at h2
      | cons sc ss =>
        cases i with
        | zero =>
          constructor <;> simp [scaleBoundsGo]
        | succ i =>
          have := ih us ss i (by simpa using hi) (by simpa using h1)
            (by simpa using h2)
          constructor <;> simp only [scaleBoundsGo, List.getD_cons_succ]
          · exact this.1
          · exact this.2

/-- A passing bounds scan means no lower bound strictly exceeds its
upper bound. -/
theorem boundsValidateGo_ok :
    ∀ (off : ℕ) (ls us : List XRat),
    boundsValidateGo off ls us = .ok () →
    ∀ i, i < ls.length → i < us.length →
    XRat.lt (us.getD i .posInf) (ls.getD i .negInf) = false := by
  intro off ls
  induction ls generalizing off with
  | nil => intro us _ i hi; simp at hi
  | cons l ls ih =>
    intro us h i hi hu
    cases us with
    | nil => simp at hu
    | cons u us =>
      unfold boundsValidateGo at h
      by_cases hlt : XRat.lt u l = true
      · rw [if_pos hlt] at h
        exact absurd h (by simp)
      · rw [if_neg hlt] at h
        cases i with
        | zero =>
          simpa using (Bool.not_eq_true _).mp hlt
        | succ i =>
          simp only [List.getD_cons_succ]
          exact ih (off + 1) us h i (by simpa using hi)
            (by simpa using hu)

/-- Binding a pure value in the `Except` monad is an `ok`. -/
theorem exceptPure_eq {ε α : Type} (x : α) :
    (pure x : Except ε α) = .ok x := rfl

/-- Extraction from a passing problem validation: bound lengths and scan,
and the row counts of the two constraint blocks. -/
theorem validate_ok_parts (p : ProblemQP) (hv : p.validate = .ok ()) :
    (∀ b, p.bounds = some b → b.lower.length = p.nvars ∧
      b.upper.length = b.lower.length ∧
      boundsValidateGo 0 b.lower b.upper = .ok ()) ∧
    (∀ c, p.equalities = some c → c.matrix.nrows = c.rhs.length) ∧
    (∀ c, p.inequalities = some c → c.matrix.nrows = c.rhs.length) := by
  unfold ProblemQP.validate at hv
  rcases hqv : p.quadratic.validate with e | u
  · rw [hqv] at hv
    exact absurd hv (by simp [exceptBind_err])
  · rw [hqv] at hv
    obtain ⟨⟩ := u
    by_cases hsq : p.quadratic.ncols ≠ p.nvars ∨ p.quadratic.nrows ≠ p.nvars
    · simp only [exceptBind_ok, if_pos hsq] at hv
      exact absurd hv (by simp [throw, throwThe, MonadExceptOf.throw,
        exceptBind_err])
    · simp only [exceptBind_ok, if_neg hsq] at hv
      have hbounds : (∀ b, p.bounds = some b → b.lower.length = p.nvars ∧
          b.upper.length = b.lower.length ∧
          boundsValidateGo 0 b.lower b.upper = .ok ()) ∧
          (match p.equalities with
            | some eq => eq.validate p.nvars >>= fun _ =>
                (match p.inequalities with
                  | some ineq => ineq.validate p.nvars
                  | none => pure ())
            | none => (match p.inequalities with
                | some ineq => ineq.validate p.nvars
                | none => pure ())) = .ok () := by
        rcases hb2 : p.bounds with _ | b
        · rw [hb2] at hv
          refine ⟨fun b hb => absurd hb (by simp), ?_⟩
          simpa [exceptPure_eq, exceptBind_ok] using hv
        · rw [hb2] at hv
          by_cases hbl : b.lower.length ≠ p.nvars
          · simp only [if_pos hbl] at hv
            exact absurd hv (by simp [throw, throwThe,
              MonadExceptOf.throw, exceptBind_err])
          · simp only [if_neg hbl] at hv
            rcases hbv : b.validate with e2 | u2
            · rw [hbv] at hv
              exact absurd hv (by simp [exceptPure_eq, exceptBind_ok,
                exceptBind_err])
            · rw [hbv] at hv
              unfold Bounds.validate at hbv
              by_cases hbll : b.lower.length ≠ b.upper.length
              · rw [if_pos hbll] at hbv
                exact absurd hbv (by simp)
              · rw [if_neg hbll] at hbv
                refine ⟨fun b2 hb2eq => ?_, by
                  simpa [exceptPure_eq, exceptBind_ok] using hv⟩
                obtain rfl := Option.some.inj hb2eq
                exact ⟨by omega, by omega, hbv⟩
      obtain ⟨hb, hrest⟩ := hbounds
      refine ⟨hb, ?_, ?_⟩
      · intro c hc
        rw [hc] at hrest
        have hrest2 : (c.validate p.nvars >>= fun _ =>
            (match p.inequalities with
              | some ineq => ineq.validate p.nvars
              | none => pure ())) = .ok () := hrest
        rcases hcv : c.validate p.nvars with e2 | u2
        · rw [hcv] at hrest2
          exact absurd hrest2 (by simp [exceptBind_err])
        · unfold EqualityConstraints.validate at hcv
          rcases hmv : c.matrix.validate with e3 | u3
          · rw [hmv] at hcv
            exact absurd hcv (by simp [exceptBind_err])
          · rw [hmv] at hcv
            simp only [exceptBind_ok] at hcv
            by_cases h1 : c.matrix.ncols ≠ p.nvars
            · rw [if_pos h1] at hcv
              exact absurd hcv (by simp)
            · rw [if_neg h1] at hcv
              by_cases h2 : c.matrix.nrows ≠ c.rhs.length
              · rw [if_pos h2] at hcv
                exact absurd hcv (by simp)
              · omega
      · intro c hc
        rw [hc] at hrest
        have hcv2 : c.validate p.nvars = .ok () := by
          rcases he2 : p.equalities with _ | eqc
          · rw [he2] at hrest
            exact hrest
          · rw [he2] at hrest
            have hr2 : (eqc.validate p.nvars >>= fun _ =>
                c.validate p.nvars) = .ok () := hrest
            rcases hev : eqc.validate p.nvars with e3 | u3
            · rw [hev] at hr2
              exact absurd hr2 (by simp [exceptBind_err])
            · rw [hev] at hr2
              exact hr2
        unfold InequalityConstraints.validate at hcv2
        rcases hmv : c.matrix.validate with e3 | u3
        · rw [hmv] at hcv2
          exact absurd hcv2 (by simp [exceptBind_err])
        · rw [hmv] at hcv2
          simp only [exceptBind_ok] at hcv2
          by_cases h1 : c.matrix.ncols ≠ p.nvars
          · rw [if_pos h1] at hcv2
            exact absurd hcv2 (by simp)
          · rw [if_neg h1] at hcv2
            by_cases h2 : c.matrix.nrows ≠ c.rhs.length
            · rw [if_pos h2] at hcv2
              exact absurd hcv2 (by simp)
            · omega

/-- Length preservation of the rhs-row writes. -/
theorem setRowsFin_length (off : ℕ) (vals : List ℚ) (t : List XRat) :
    (setRowsFin off vals t).length = t.length := by
  unfold setRowsFin
  exact foldl_length_pres _ (fun t a => List.length_set t _ _) _ t

/-- Read-back of the rhs-row writes. -/
theorem setRowsFin_getD (off : ℕ) (vals : List ℚ) (t : List XRat)
    (dflt : XRat) (q : ℕ) (hq : q < t.length) :
    (setRowsFin off vals t).getD q dflt =
      if off ≤ q ∧ q < off + vals.length then
        .fin (vals.getD (q - off) 0)
      else t.getD q dflt := by
  unfold setRowsFin
  exact foldl_set_offset_getD off (fun idx => XRat.fin (vals.getD idx 0))
    dflt vals.length t q hq

/-- Length preservation of the bound-row writes. -/
theorem setBoundRows_length (off n : ℕ) (vals : List XRat) (dflt : XRat)
    (t : List XRat) :
    (setBoundRows off n vals dflt t).length = t.length := by
  unfold setBoundRows
  exact foldl_length_pres _ (fun t a => List.length_set t _ _) _ t

/-- Read-back of the bound-row writes. -/
theorem setBoundRows_getD (off n : ℕ) (vals : List XRat) (dflt : XRat)
    (t : List XRat) (rdflt : XRat) (q : ℕ) (hq : q < t.length) :
    (setBoundRows off n vals dflt t).getD q rdflt =
      if off ≤ q ∧ q < off + n then vals.getD (q - off) dflt
      else t.getD q rdflt := by
  unfold setBoundRows
  exact foldl_set_offset_getD off (fun var => vals.getD var dflt) rdflt
    n t q hq

/-- Unified row count of the assembled workspace. -/
theorem wsNew_m (q : ProblemQP) :
    (AdmmWorkspace.new q).m =
      (match q.equalities with | some e => e.matrix.nrows | none => 0) +
      (match q.inequalities with | some i => i.matrix.nrows | none => 0) +
      (match q.bounds with | some b => b.lower.length | none => 0) := by
  obtain ⟨qd, ql, iqs, eqs, bds⟩ := q
  rcases eqs <;> rcases iqs <;> rcases bds <;> rfl

/-- Unified form of the assembled lower row bounds: equality rows first,
then the untouched inequality rows, then the caller's (possibly absent)
lower bounds. -/
theorem wsNew_lower (q : ProblemQP) :
    (AdmmWorkspace.new q).lower =
      setBoundRows
        ((match q.equalities with | some e => e.matrix.nrows | none => 0) +
         (match q.inequalities with | some i => i.matrix.nrows | none => 0))
        (match q.bounds with | some _ => q.nvars | none => 0)
        (match q.bounds with | some b => b.lower | none => [])
        .negInf
        (setRowsFin 0
          (match q.equalities with | some e => e.rhs | none => [])
          (List.replicate (AdmmWorkspace.new q).m .negInf)) := by
  obtain ⟨qd, ql, iqs, eqs, bds⟩ := q
  rcases eqs <;> rcases iqs <;> rcases bds <;>
    simp [AdmmWorkspace.new, setRowsFin, setBoundRows]

/-- Unified form of the assembled upper row bounds: equality rows, then
inequality right-hand sides, then the caller's upper bounds. -/
theorem wsNew_upper (q : ProblemQP) :
    (AdmmWorkspace.new q).upper =
      setBoundRows
        ((match q.equalities with | some e => e.matrix.nrows | none => 0) +
         (match q.inequalities with | some i => i.matrix.nrows | none => 0))
        (match q.bounds with | some _ => q.nvars | none => 0)
        (match q.bounds with | some b => b.upper | none => [])
        .posInf
        (setRowsFin
          (match q.equalities with | some e => e.matrix.nrows | none => 0)
          (match q.inequalities with | some i => i.rhs | none => [])
          (setRowsFin 0
            (match q.equalities with | some e => e.rhs | none => [])
            (List.replicate (AdmmWorkspace.new q).m .posInf))) := by
  obtain ⟨qd, ql, iqs, eqs, bds⟩ := q
  rcases eqs <;> rcases iqs <;> rcases bds <;>
    simp [AdmmWorkspace.new, setRowsFin, setBoundRows]

/-- Well-formedness of the workspace's per-row admissible intervals:
lengths match the row count, each interval is nonempty, and no interval
has an infinite bound on the wrong side. -/
def wsWellFormed (ws : AdmmWorkspace) : Prop :=
  ws.lower.length = ws.m ∧ ws.upper.length = ws.m ∧
  ∀ i, i < ws.m →
    XRat.le (ws.lower.getD i .negInf) (ws.upper.getD i .posInf) = true ∧
    ws.lower.getD i .negInf ≠ .posInf ∧
    ws.upper.getD i .posInf ≠ .negInf

/-- The workspace assembled from a problem with consistent block sizes and
well-formed bounds has well-formed row intervals. -/
theorem workspaceNew_wf (q : ProblemQP)
    (hbw : ∀ b, q.bounds = some b →
      b.lower.length = q.nvars ∧ b.upper.length = q.nvars ∧
      ∀ i, i < q.nvars →
        XRat.le (b.lower.getD i .negInf) (b.upper.getD i .posInf) = true ∧
        b.lower.getD i .negInf ≠ .posInf ∧
        b.upper.getD i .posInf ≠ .negInf)
    (heq : ∀ c, q.equalities = some c → c.matrix.nrows = c.rhs.length)
    (hineq : ∀ c, q.inequalities = some c →
      c.matrix.nrows = c.rhs.length) :
    wsWellFormed (AdmmWorkspace.new q) := by
  set meqv := (match q.equalities with
    | some e => e.matrix.nrows | none => 0) with hmeqv
  set mineqv := (match q.inequalities with
    | some i => i.matrix.nrows | none => 0) with hmineqv
  set mbv := (match q.bounds with
    | some b => b.lower.length | none => 0) with hmbv
  set nbv := (match q.bounds with
    | some _ => q.nvars | none => 0) with hnbv
  set erhsv := (match q.equalities with
    | some e => e.rhs | none => ([] : List ℚ)) with herhsv
  set irhsv := (match q.inequalities with
    | some i => i.rhs | none => ([] : List ℚ)) with hirhsv
  set blowv := (match q.bounds with
    | some b => b.lower | none => ([] : List XRat)) with hblowv
  set bupv := (match q.bounds with
    | some b => b.upper | none => ([] : List XRat)) with hbupv
  have hme : meqv = erhsv.length := by
    rw [hmeqv, herhsv]
    rcases hc : q.equalities with _ | c
    · rfl
    · exact heq c hc
  have hmi : mineqv = irhsv.length := by
    rw [hmineqv, hirhsv]
    rcases hc : q.inequalities with _ | c
    · rfl
    · exact hineq c hc
  have hmb : mbv = nbv ∧ blowv.length = nbv ∧ bupv.length = nbv := by
    rw [hmbv, hnbv, hblowv, hbupv]
    rcases hc : q.bounds with _ | b
    · exact ⟨rfl, rfl, rfl⟩
    · obtain ⟨h1, h2, _⟩ := hbw b hc
      exact ⟨h1, h1, h2⟩
  have hbrow : ∀ j, j < nbv →
      XRat.le (blowv.getD j .negInf) (bupv.getD j .posInf) = true ∧
      blowv.getD j .negInf ≠ .posInf ∧
      bupv.getD j .posInf ≠ .negInf := by
    rw [hnbv, hblowv, hbupv]
    rcases hc : q.bounds with _ | b
    · intro j hj
      exact absurd hj (Nat.not_lt_zero j)
    · exact (hbw b hc).2.2
  have hm : (AdmmWorkspace.new q).m = meqv + mineqv + mbv := wsNew_m q
  have hlow := wsNew_lower q
  have hup := wsNew_upper q
  rw [← hmeqv, ← hmineqv, ← hnbv, ← hblowv, ← herhsv] at hlow
  rw [← hmeqv, ← hmineqv, ← hnbv, ← hbupv, ← herhsv, ← hirhsv] at hup
  have hlowlen : (AdmmWorkspace.new q).lower.length
      = (AdmmWorkspace.new q).m := by
    rw [hlow, setBoundRows_length, setRowsFin_length,
      List.length_replicate]
  have huplen : (AdmmWorkspace.new q).upper.length
      = (AdmmWorkspace.new q).m := by
    rw [hup, setBoundRows_length, setRowsFin_length, setRowsFin_length,
      List.length_replicate]
  refine ⟨hlowlen, huplen, ?_⟩
  intro i hi
  have him : i < (AdmmWorkspace.new q).m := hi
  have hinner : i < ((setRowsFin 0 erhsv
      (List.replicate (AdmmWorkspace.new q).m XRat.negInf)).length) := by
    rw [setRowsFin_length, List.length_replicate]
    exact him
  have hinner2 : i < ((setRowsFin meqv irhsv (setRowsFin 0 erhsv
      (List.replicate (AdmmWorkspace.new q).m XRat.posInf))).length) := by
    rw [setRowsFin_length, setRowsFin_length, List.length_replicate]
    exact him
  have hlowv : (AdmmWorkspace.new q).lower.getD i .negInf =
      if meqv + mineqv ≤ i ∧ i < meqv + mineqv + nbv then
        blowv.getD (i - (meqv + mineqv)) .negInf
      else (setRowsFin 0 erhsv
        (List.replicate (AdmmWorkspace.new q).m XRat.negInf)).getD
          i .negInf := by
    rw [hlow]
    exact setBoundRows_getD _ _ _ _ _ _ i hinner
  have hupv : (AdmmWorkspace.new q).upper.getD i .posInf =
      if meqv + mineqv ≤ i ∧ i < meqv + mineqv + nbv then
        bupv.getD (i - (meqv + mineqv)) .posInf
      else (setRowsFin meqv irhsv (setRowsFin 0 erhsv
        (List.replicate (AdmmWorkspace.new q).m XRat.posInf))).getD
          i .posInf := by
    rw [hup]
    exact setBoundRows_getD _ _ _ _ _ _ i hinner2
  by_cases hseg3 : meqv + mineqv ≤ i ∧ i < meqv + mineqv + nbv
  · rw [if_pos hseg3] at hlowv hupv
    rw [hlowv, hupv]
    exact hbrow (i - (meqv + mineqv)) (by omega)
  · rw [if_neg hseg3] at hlowv hupv
    have hL1 := setRowsFin_getD 0 erhsv
      (List.replicate (AdmmWorkspace.new q).m XRat.negInf) .negInf i
      (by rw [List.length_replicate]; exact him)
    have hU2 := setRowsFin_getD meqv irhsv
      (setRowsFin 0 erhsv
        (List.replicate (AdmmWorkspace.new q).m XRat.posInf)) .posInf
      i (by rw [setRowsFin_length, List.length_replicate]; exact him)
    have hU1 := setRowsFin_getD 0 erhsv
      (List.replicate (AdmmWorkspace.new q).m XRat.posInf) .posInf i
      (by rw [List.length_replicate]; exact him)
    rw [hL1] at hlowv
    rw [hU2] at hupv
    by_cases hseg2 : meqv ≤ i ∧ i < meqv + irhsv.length
    · rw [if_pos hseg2] at hupv
      rw [if_neg (by omega), getD_replicate _ _ _ _ him] at hlowv
      rw [hlowv, hupv]
      exact ⟨rfl, by simp, by simp⟩
    · rw [if_neg hseg2] at hupv
      rw [hU1] at hupv
      have hieq : i < erhsv.length := by
        rw [hm] at him
        omega
      rw [if_pos (by omega)] at hlowv
      rw [if_pos (by omega)] at hupv
      rw [hlowv, hupv]
      exact ⟨by simp [XRat.le], by simp, by simp⟩

/-- Vector scaling preserves length. -/
theorem applyVectorScaling_length :
    ∀ (v s : List ℚ), (applyVectorScaling v s).length = v.length := by
  intro v
  induction v with
  | nil => intro s; cases s <;> rfl
  | cons a v ih =>
    intro s
    cases s with
    | nil => rfl
    | cons scv ss => simp [applyVectorScaling, ih]

/-- QP scaling keeps the number of decision variables. -/
theorem scaleQp_nvars (rsqrt : ℚ → ℚ) (sc : RuizScaler) (p : ProblemQP) :
    (scaleQp rsqrt sc p).1.nvars = p.nvars := by
  have h := applyVectorScaling_length p.linear
    ((scaleQp rsqrt sc p).2.column_scaling)
  exact h

/-- A fold preserves any invariant preserved by its step. -/
theorem foldl_pred_pres {α β : Type} (P : α → Prop) (f : α → β → α)
    (hf : ∀ s a, P s → P (f s a)) :
    ∀ (L : List β) (s : α), P s → P (L.foldl f s) := by
  intro L
  induction L with
  | nil => exact fun s h => h
  | cons a L ih =>
    intro s h
    rw [List.foldl_cons]
    exact ih _ (hf s a h)

/-- The scaling vector produced by `scale_qp` has positive entries (given
a positive starting state) and length equal to the variable count: the
reset writes ones, and every equilibration update divides by a factor the
source guards to be positive. -/
theorem scaleQp_scaling (rsqrt : ℚ → ℚ) (sc : RuizScaler) (p : ProblemQP)
    (hsc : ∀ e ∈ sc.column_scaling, 0 < e) :
    (∀ e ∈ (scaleQp rsqrt sc p).2.column_scaling, 0 < e) ∧
    (scaleQp rsqrt sc p).2.column_scaling.length = p.nvars := by
  have h0 : (∀ e ∈ resetScaling sc.column_scaling p.nvars, 0 < e) ∧
      (resetScaling sc.column_scaling p.nvars).length = p.nvars := by
    unfold resetScaling
    by_cases h : sc.column_scaling.length ≠ p.nvars
    · rw [if_pos h]
      refine ⟨?_, List.length_replicate _ _⟩
      intro e he
      rw [List.eq_of_mem_replicate he]
      norm_num
    · rw [if_neg h]
      exact ⟨hsc, by omega⟩
  have hstep : ∀ (s : List ℚ) (u : ℕ),
      ((∀ e ∈ s, 0 < e) ∧ s.length = p.nvars) →
      ((∀ e ∈ (match p.equalities with
          | some eqc => equilibrateColumns rsqrt eqc.matrix
              (match p.inequalities with
               | some iqc => equilibrateColumns rsqrt iqc.matrix
                   (equilibrateColumns rsqrt p.quadratic s)
               | none => equilibrateColumns rsqrt p.quadratic s)
          | none => (match p.inequalities with
               | some iqc => equilibrateColumns rsqrt iqc.matrix
                   (equilibrateColumns rsqrt p.quadratic s)
               | none => equilibrateColumns rsqrt p.quadratic s)),
          0 < e) ∧
        (match p.equalities with
          | some eqc => equilibrateColumns rsqrt eqc.matrix
              (match p.inequalities with
               | some iqc => equilibrateColumns rsqrt iqc.matrix
                   (equilibrateColumns rsqrt p.quadratic s)
               | none => equilibrateColumns rsqrt p.quadratic s)
          | none => (match p.inequalities with
               | some iqc => equilibrateColumns rsqrt iqc.matrix
                   (equilibrateColumns rsqrt p.quadratic s)
               | none => equilibrateColumns rsqrt p.quadratic s)).length
          = p.nvars) := by
    intro s u h
    obtain ⟨hp, hl⟩ := h
    rcases p.equalities with _ | eqc <;> rcases p.inequalities with _ | iqc
    · exact ⟨equilibrateColumns_pos _ _ _ hp,
        by simp only [equilibrateColumns_length]; exact hl⟩
    · exact ⟨equilibrateColumns_pos _ _ _
          (equilibrateColumns_pos _ _ _ hp),
        by simp only [equilibrateColumns_length]; exact hl⟩
    · exact ⟨equilibrateColumns_pos _ _ _
          (equilibrateColumns_pos _ _ _ hp),
        by simp only [equilibrateColumns_length]; exact hl⟩
    · exact ⟨equilibrateColumns_pos _ _ _ (equilibrateColumns_pos _ _ _
          (equilibrateColumns_pos _ _ _ hp)),
        by simp only [equilibrateColumns_length]; exact hl⟩
  have key := foldl_pred_pres
    (fun s => (∀ e ∈ s, 0 < e) ∧ s.length = p.nvars)
    (fun s _ => match p.equalities with
      | some eqc => equilibrateColumns rsqrt eqc.matrix
          (match p.inequalities with
           | some iqc => equilibrateColumns rsqrt iqc.matrix
               (equilibrateColumns rsqrt p.quadratic s)
           | none => equilibrateColumns rsqrt p.quadratic s)
      | none => (match p.inequalities with
           | some iqc => equilibrateColumns rsqrt iqc.matrix
               (equilibrateColumns rsqrt p.quadratic s)
           | none => equilibrateColumns rsqrt p.quadratic s))
    hstep (List.range sc.iterations)
    (resetScaling sc.column_scaling p.nvars) h0
  exact ⟨key.1, key.2⟩

/-- The workspace assembled from the scaled problem of a validated input
with no wrong-side infinite bounds (and a positive scaler state) has
well-formed row intervals. -/
theorem scaledProblem_wf (rsqrt : ℚ → ℚ) (sc : RuizScaler) (p : ProblemQP)
    (hv : p.validate = .ok ())
    (hsc : ∀ e ∈ sc.column_scaling, 0 < e)
    (hinf : ∀ b, p.bounds = some b → ∀ i, i < p.nvars →
      b.lower.getD i .negInf ≠ .posInf ∧
      b.upper.getD i .posInf ≠ .negInf) :
    wsWellFormed (AdmmWorkspace.new (scaleQp rsqrt sc p).1) := by
  obtain ⟨hbparts, heqp, hineqp⟩ := validate_ok_parts p hv
  obtain ⟨hspos, hslen⟩ := scaleQp_scaling rsqrt sc p hsc
  apply workspaceNew_wf
  · intro b' hb'
    have hproj : (scaleQp rsqrt sc p).1.bounds
        = p.bounds.map (fun b => scaleBounds b
            (scaleQp rsqrt sc p).2.column_scaling) := rfl
    rw [hproj, Option.map_eq_some'] at hb'
    obtain ⟨b, hb, hfb⟩ := hb'
    obtain ⟨hl1, hl2, hscan⟩ := hbparts b hb
    have hinfb := hinf b hb
    have hlen1 : b'.lower.length = b.lower.length := by
      rw [← hfb]
      exact (scaleBoundsGo_lengths b.lower b.upper
        ((scaleQp rsqrt sc p).2.column_scaling)).1
    have hlen2 : b'.upper.length = b.upper.length := by
      rw [← hfb]
      exact (scaleBoundsGo_lengths b.lower b.upper
        ((scaleQp rsqrt sc p).2.column_scaling)).2
    refine ⟨by rw [hlen1, hl1, scaleQp_nvars],
      by rw [hlen2, hl2, hl1, scaleQp_nvars], ?_⟩
    intro i hi
    have hip : i < p.nvars := by rwa [scaleQp_nvars] at hi
    have hil : i < b.lower.length := by omega
    have hget := scaleBoundsGo_getD b.lower b.upper
      ((scaleQp rsqrt sc p).2.column_scaling) i hil hl2.symm
      (by rw [hl2, hl1]; exact hslen.symm)
    have hilen : i < (scaleQp rsqrt sc p).2.column_scaling.length := by
      rw [hslen]
      exact hip
    have hsi_pos : 0 < (scaleQp rsqrt sc p).2.column_scaling.getD i 0 := by
      rw [List.getD_eq_getElem _ _ hilen]
      exact hspos _ (List.getElem_mem hilen)
    have hsne : (scaleQp rsqrt sc p).2.column_scaling.getD i 0 ≠ 0 :=
      ne_of_gt hsi_pos
    have hle0 : XRat.le (b.lower.getD i .negInf)
        (b.upper.getD i .posInf) = true :=
      xle_of_lt_false _ _
        (boundsValidateGo_ok 0 b.lower b.upper hscan i hil (by omega))
    obtain ⟨hlo0, hhi0⟩ := hinfb i hip
    have hmw := mulQ_wf _ _ _ hsi_pos hle0 hlo0 hhi0
    have hblow : b'.lower = (scaleBoundsGo b.lower b.upper
        ((scaleQp rsqrt sc p).2.column_scaling)).1 := by
      rw [← hfb]
      rfl
    have hbup : b'.upper = (scaleBoundsGo b.lower b.upper
        ((scaleQp rsqrt sc p).2.column_scaling)).2 := by
      rw [← hfb]
      rfl
    rw [hblow, hbup, hget.1, hget.2, if_pos hsne, if_pos hsne]
    exact ⟨hmw.1, hmw.2.1, hmw.2.2⟩
  · intro c hc
    have hproj : (scaleQp rsqrt sc p).1.equalities
        = p.equalities.map (fun eqc =>
            { eqc with
              matrix := applyColumnScaling eqc.matrix
                  ((scaleQp rsqrt sc p).2.column_scaling) }) := rfl
    rw [hproj, Option.map_eq_some'] at hc
    obtain ⟨eq0, heq0, hfe⟩ := hc
    rw [← hfe]
    exact heqp eq0 heq0
  · intro c hc
    have hproj : (scaleQp rsqrt sc p).1.inequalities
        = p.inequalities.map (fun iqc =>
            { iqc with
              matrix := applyColumnScaling iqc.matrix
                  ((scaleQp rsqrt sc p).2.column_scaling) }) := rfl
    rw [hproj, Option.map_eq_some'] at hc
    obtain ⟨iq0, hiq0, hfi⟩ := hc
    rw [← hfi]
    exact hineqp iq0 hiq0

/-- The iterate `z` lies componentwise inside the workspace's row
intervals. -/
def zInBox (ws : AdmmWorkspace) (z : List ℚ) : Prop :=
  z.length = ws.m ∧ ∀ i, i < ws.m →
    XRat.le (ws.lower.getD i .negInf) (.fin (z.getD i 0)) = true ∧
    XRat.le (.fin (z.getD i 0)) (ws.upper.getD i .posInf) = true

/-- A box projection against well-formed row intervals lands inside
them. -/
theorem projectBox_inBox (ws : AdmmWorkspace) (x : List ℚ)
    (hwf : wsWellFormed ws) (hx : x.length = ws.m) :
    zInBox ws (projectBox x ws.lower ws.upper) := by
  obtain ⟨hl, hu, hrow⟩ := hwf
  have hlen : (projectBox x ws.lower ws.upper).length = ws.m := by
    rw [projectBox_length x _ _ (by omega) (by omega), hx]
  refine ⟨hlen, ?_⟩
  intro i hi
  rw [projectBox_getD x _ _ i (by omega) (by omega) (by omega)]
  obtain ⟨h1, h2, h3⟩ := hrow i hi
  exact clampQ_mem _ _ _ h1 h2 h3

/-- The certificates the spec promises for an `Optimal` return: the final
`z` within the row box, `ax` the image of the final `x`, and a final
iteration record whose primal residual is `‖Ax − z‖_∞`, whose gap is the
relative objective gap, all within tolerance. -/
def optimalCertificates (opts : SolveOptions) (ws : AdmmWorkspace)
    (st : AdmmIter) : Prop :=
  (∀ i, i < ws.m →
    XRat.le (ws.lower.getD i .negInf) (.fin (st.z.getD i 0)) = true ∧
    XRat.le (.fin (st.z.getD i 0)) (ws.upper.getD i .posInf) = true) ∧
  st.ax = ws.multiplyA st.x ∧
  ∃ r, st.stats.history.getLast? = some r ∧
    r.primal_residual
      = normInf ((st.ax.zip st.z).map fun e => e.1 - e.2) ∧
    r.relative_gap = relativeGap r.primal_objective r.dual_objective ∧
    r.primal_residual ≤ opts.tolerance ∧
    r.dual_residual ≤ opts.tolerance ∧
    r.relative_gap ≤ opts.tolerance

/-- A breaking iteration declares `Optimal` and establishes the
certificates; a non-breaking one leaves the status unchanged. -/
theorem admmStep_break (opts : SolveOptions) (ws : AdmmWorkspace)
    (linear : List ℚ) (iter : ℕ) (st st' : AdmmIter) (b : Bool)
    (hwf : wsWellFormed ws)
    (h : admmStep opts ws linear iter st = .ok (st', b)) :
    (b = true → st'.status = .optimal ∧ optimalCertificates opts ws st') ∧
    (b = false → st'.status = st.status) := by
  unfold admmStep at h
  rw [exceptBind_ok_iff] at h
  obtain ⟨ls1, hf, h⟩ := h
  rw [exceptBind_ok_iff] at h
  obtain ⟨xv, hs, h⟩ := h
  simp only [SolveStats.push] at h
  split at h
  · rename_i hcond
    injection h with hpair
    injection hpair with hrec hbool
    subst hrec
    subst hbool
    constructor
    · intro _
      refine ⟨rfl, ?_⟩
      unfold optimalCertificates
      refine ⟨?_, rfl, ?_⟩
      · intro i him
        exact (projectBox_inBox ws _ hwf (by simp)).2 i him
      · exact ⟨_, List.getLast?_concat _, rfl, rfl, hcond.1,
          hcond.2.1, hcond.2.2⟩
    · intro hb
      exact Bool.noConfusion hb
  · rename_i hcond
    injection h with hpair
    injection hpair with hrec hbool
    subst hrec
    subst hbool
    exact ⟨fun hb => Bool.noConfusion hb, fun _ => rfl⟩

/-- If the loop enters with a non-`Optimal` status and exits `Optimal`,
some iteration broke, so the certificates hold for the exit state. -/
theorem admmGo_optimal (opts : SolveOptions) (ws : AdmmWorkspace)
    (linear : List ℚ) (hwf : wsWellFormed ws) :
    ∀ (fuel iter : ℕ) (st final : AdmmIter),
    admmGo opts ws linear fuel iter st = .ok final →
    st.status ≠ .optimal →
    final.status = .optimal →
    optimalCertificates opts ws final := by
  intro fuel
  induction fuel with
  | zero =>
    intro iter st final h hst hopt
    have := Except.ok.inj h
    subst this
    exact absurd hopt hst
  | succ fuel ih =>
    intro iter st final h hst hopt
    unfold admmGo at h
    rw [exceptBind_ok_iff] at h
    obtain ⟨r, hstep, h⟩ := h
    obtain ⟨st1, b⟩ := r
    have hbr := admmStep_break opts ws linear iter st st1 b hwf hstep
    cases b with
    | true =>
      simp only [if_pos] at h
      have := Except.ok.inj h
      subst this
      exact (hbr.1 rfl).2
    | false =>
      simp only [Bool.false_eq_true, if_false] at h
      refine ih (iter + 1) st1 final h ?_ hopt
      rw [hbr.2 rfl]
      exact hst

/-- Empty loop state, used as the error-side default of the outcome
projections. -/
def emptyAdmmIter : AdmmIter :=
  { x := [], ax := [], z := [], y := [], rho := 0,
    linSys := LinearSystem.new [] [] 0, stats := SolveStats.new,
    lastObjective := 0, dualObjective := 0, status := .maxIterations }

/-- Final loop state of a solve outcome (an empty state on error). -/
def outcomeFinalState : Except SolveErr SolveOutcome → AdmmIter
  | .ok r => r.finalState
  | .error _ => emptyAdmmIter

/-- Workspace of a solve outcome (an empty workspace on error). -/
def outcomeWorkspace : Except SolveErr SolveOutcome → AdmmWorkspace
  | .ok r => r.workspace
  | .error _ =>
    { n := 0, m := 0, p_base := [], ata := [], a_dense := [],
      lower := [], upper := [] }

/-- Returned solution status of a solve outcome (`MaxIterations` on
error, which is also the loop's initial status). -/
def outcomeStatus : Except SolveErr SolveOutcome → Status
  | .ok r => r.solution.status
  | .error _ => .maxIterations

/-- **C4** (confirmed): every solve that returns with status `Optimal`
leaves certificates in the final iteration record: its primal residual is
the ∞-norm of `Ax − z` and is ≤ the configured tolerance, its dual
residual and relative objective gap are ≤ the tolerance (the gap being
the relative gap of the recorded objectives), the final `ax` is the image
of the final `x` under the stacked constraints, and the final `z` lies
componentwise inside the workspace's row intervals `[ℓ, u]`.  The two
hypotheses keep the row intervals well formed in the exact model: the
incoming scaler state (if any) is positive, and no bound carries an
infinity on the wrong side (where IEEE arithmetic would make the
projection itself infinite). -/
theorem optimal_certificates (rsqrt : ℚ → ℚ) (opts : SolveOptions)
    (warm : Option WarmStart) (p : ProblemQP) (sc : RuizScaler)
    (hsc : ∀ e ∈ sc.column_scaling, 0 < e)
    (hinf : ∀ b, p.bounds = some b → ∀ i, i < p.nvars →
      b.lower.getD i .negInf ≠ .posInf ∧
      b.upper.getD i .posInf ≠ .negInf)
    (hopt : outcomeStatus (solveQpCore rsqrt opts warm p sc)
      = .optimal) :
    optimalCertificates opts
      (outcomeWorkspace (solveQpCore rsqrt opts warm p sc))
      (outcomeFinalState (solveQpCore rsqrt opts warm p sc)) := by
  rcases hrun : solveQpCore rsqrt opts warm p sc with err | out
  · rw [hrun] at hopt
    exact absurd hopt (by simp [outcomeStatus])
  · rw [hrun] at hopt
    have hrun2 := hrun
    unfold solveQpCore at hrun2
    rw [exceptBind_ok_iff] at hrun2
    obtain ⟨u, hv, hrest⟩ := hrun2
    obtain ⟨⟩ := u
    simp only [exceptBind_ok_iff] at hrest
    obtain ⟨final, hgo, hout2⟩ := hrest
    injection hout2 with hrec
    subst hrec
    have hfs : final.status = .optimal := hopt
    have hwf := scaledProblem_wf rsqrt sc p hv hsc hinf
    exact admmGo_optimal opts (AdmmWorkspace.new (scaleQp rsqrt sc p).1)
      (scaleQp rsqrt sc p).1.linear hwf opts.max_iterations 0 _ final hgo
      (fun hco => Status.noConfusion hco) hfs

/-- Witness for C4: a concrete unconstrained QP solve converges in one
iteration with status `Optimal`, the hypotheses hold (fresh scaler, no
bounds), and the certificates follow. -/
theorem optimal_certificates_witness :
    (∀ e ∈ (RuizScaler.new 0).column_scaling, (0 : ℚ) < e) ∧
    (∀ b, ({ quadratic := { nrows := 1, ncols := 1, indptr := [0, 1],
                            indices := [0], data := [2] },
             linear := [-1], inequalities := none, equalities := none,
             bounds := none } : ProblemQP).bounds = some b →
      ∀ i, i < ({ quadratic := { nrows := 1, ncols := 1, indptr := [0, 1],
                                 indices := [0], data := [2] },
                  linear := [-1], inequalities := none,
                  equalities := none,
                  bounds := none } : ProblemQP).nvars →
        b.lower.getD i .negInf ≠ .posInf ∧
        b.upper.getD i .posInf ≠ .negInf) ∧
    outcomeStatus (solveQpCore (fun _ => 0)
      (SolveOptions.mk (1 / 1000000) 10 1 (3 / 2) false 1 42) none
      { quadratic := { nrows := 1, ncols := 1, indptr := [0, 1],
                       indices := [0], data := [2] },
        linear := [-1], inequalities := none, equalities := none,
        bounds := none }
      (RuizScaler.new 0)) = .optimal ∧
    optimalCertificates
      (SolveOptions.mk (1 / 1000000) 10 1 (3 / 2) false 1 42)
      (outcomeWorkspace (solveQpCore (fun _ => 0)
        (SolveOptions.mk (1 / 1000000) 10 1 (3 / 2) false 1 42) none
        { quadratic := { nrows := 1, ncols := 1, indptr := [0, 1],
                         indices := [0], data := [2] },
          linear := [-1], inequalities := none, equalities := none,
          bounds := none }
        (RuizScaler.new 0)))
      (outcomeFinalState (solveQpCore (fun _ => 0)
        (SolveOptions.mk (1 / 1000000) 10 1 (3 / 2) false 1 42) none
        { quadratic := { nrows := 1, ncols := 1, indptr := [0, 1],
                         indices := [0], data := [2] },
          linear := [-1], inequalities := none, equalities := none,
          bounds := none }
        (RuizScaler.new 0))) := by
  have hopt : outcomeStatus (solveQpCore (fun _ => 0)
      (SolveOptions.mk (1 / 1000000) 10 1 (3 / 2) false 1 42) none
      { quadratic := { nrows := 1, ncols := 1, indptr := [0, 1],
                       indices := [0], data := [2] },
        linear := [-1], inequalities := none, equalities := none,
        bounds := none }
      (RuizScaler.new 0)) = .optimal := by
    norm_num [outcomeStatus, solveQpCore, ProblemQP.validate,
      CscMatrix.validate, scaleQp, resetScaling, applyColumnScaling,
      applyCol, applyColIdx, applyVectorScaling, AdmmWorkspace.new,
      setRowsFin, setBoundRows, setBoundDiag, scatterCsc, cscToDense,
      computeAta, AdmmWorkspace.multiplyA, AdmmWorkspace.multiplyAt,
      projectBox, clampQ, LinearSystem.new, computeObjective,
      multiplyDense, dot, admmGo, admmStep, LinearSystem.factor,
      LinearSystem.refactor, LinearSystem.solve, DenseKktSolver.solve,
      DenseKktSolver.forwardPass, DenseKktSolver.diagPass,
      DenseKktSolver.backPass, DenseKktSolver.factor,
      DenseKktSolver.factorGo, DenseKktSolver.analyzePattern,
      DenseKktSolver.new, DenseKktSolver.ldlGo, DenseKktSolver.ldlStep,
      DenseKktMatrix.entry, ldlEpsilon, rhoCacheEps, SolveStats.new,
      SolveStats.push, ProblemQP.nvars, normInf, residualsInf,
      relativeGap, abs_of_pos, exceptBind_ok, exceptBind_err,
      RuizScaler.new, resetScaling, equilibrateColumns,
      Finset.sum_range_zero, Finset.sum_range_succ, List.range_succ,
      List.range_zero]
  exact ⟨by simp [RuizScaler.new],
    fun b hb => Option.noConfusion hb, hopt,
    optimal_certificates (fun _ => 0)
      (SolveOptions.mk (1 / 1000000) 10 1 (3 / 2) false 1 42) none
      { quadratic := { nrows := 1, ncols := 1, indptr := [0, 1],
                       indices := [0], data := [2] },
        linear := [-1], inequalities := none, equalities := none,
        bounds := none }
      (RuizScaler.new 0) (by simp [RuizScaler.new])
      (fun b hb => Option.noConfusion hb) hopt⟩

end Cvxrs
